import Mathlib

/-!
Verification of the HHL linear-solver orchestration code
(`linear_solvers/hhl.py`) against its natural-language specification.

Shallow embedding conventions:
* Python floats are modelled as exact rationals (`ℚ`); formulas that are
  irrational over the reals (logarithms, roots, π) are modelled in `ℝ`.
* Complex amplitudes/entries are modelled by `QC`, complex numbers with
  rational components.
* Operators and statevectors are `ℕ`-indexed functions together with an
  explicit dimension, mirroring dense `numpy` arrays; `kron` is the usual
  Kronecker product used by `Operator.tensor`.
* External collaborators (the state-preparation oracle, phase-estimation
  and reciprocal circuit libraries, `NumPyMatrix`, the statevector
  simulator) are modelled by their declared interfaces (parameters and
  opaque-to-this-file data), as the spec places them out of scope.
* Fallible code returns `Except String`.
-/

/-- Complex numbers with rational real and imaginary parts: the exact model
of the complex floating-point scalars used by the Python code. -/
@[ext]
structure QC where
  re : ℚ
  im : ℚ
deriving DecidableEq

namespace QC

instance : Zero QC := ⟨⟨0, 0⟩⟩
instance : One QC := ⟨⟨1, 0⟩⟩
instance : Add QC := ⟨fun x y => ⟨x.re + y.re, x.im + y.im⟩⟩
instance : Neg QC := ⟨fun x => ⟨-x.re, -x.im⟩⟩
instance : Sub QC := ⟨fun x y => ⟨x.re - y.re, x.im - y.im⟩⟩
instance : Mul QC := ⟨fun x y => ⟨x.re * y.re - x.im * y.im, x.re * y.im + x.im * y.re⟩⟩
instance : SMul ℚ QC := ⟨fun q x => ⟨q * x.re, q * x.im⟩⟩

@[simp] theorem zero_re : (0 : QC).re = 0 := rfl
@[simp] theorem zero_im : (0 : QC).im = 0 := rfl
@[simp] theorem one_re : (1 : QC).re = 1 := rfl
@[simp] theorem one_im : (1 : QC).im = 0 := rfl
@[simp] theorem add_re (x y : QC) : (x + y).re = x.re + y.re := rfl
@[simp] theorem add_im (x y : QC) : (x + y).im = x.im + y.im := rfl
@[simp] theorem neg_re (x : QC) : (-x).re = -x.re := rfl
@[simp] theorem neg_im (x : QC) : (-x).im = -x.im := rfl
@[simp] theorem sub_re (x y : QC) : (x - y).re = x.re - y.re := rfl
@[simp] theorem sub_im (x y : QC) : (x - y).im = x.im - y.im := rfl
@[simp] theorem mul_re (x y : QC) : (x * y).re = x.re * y.re - x.im * y.im := rfl
@[simp] theorem mul_im (x y : QC) : (x * y).im = x.re * y.im + x.im * y.re := rfl
@[simp] theorem smul_re (q : ℚ) (x : QC) : (q • x).re = q * x.re := rfl
@[simp] theorem smul_im (q : ℚ) (x : QC) : (q • x).im = q * x.im := rfl

instance : AddCommMonoid QC where
  add_assoc a b c := by ext <;> simp <;> ring
  zero_add a := by ext <;> simp
  add_zero a := by ext <;> simp
  add_comm a b := by ext <;> simp <;> ring
  nsmul := nsmulRec

instance : CommMonoidWithZero QC where
  mul_assoc a b c := by ext <;> simp <;> ring
  one_mul a := by ext <;> simp
  mul_one a := by ext <;> simp
  mul_comm a b := by ext <;> simp <;> ring
  zero_mul a := by ext <;> simp
  mul_zero a := by ext <;> simp

/-- Complex conjugation (`numpy.conj`). -/
def conj (x : QC) : QC := ⟨x.re, -x.im⟩

@[simp] theorem conj_re (x : QC) : (conj x).re = x.re := rfl
@[simp] theorem conj_im (x : QC) : (conj x).im = -x.im := rfl

@[simp] theorem conj_zero : conj 0 = 0 := by ext <;> simp

@[simp] theorem conj_one : conj 1 = 1 := by ext <;> simp

end QC

/-! ### Dense operators and statevectors

An operator (or statevector) is a `ℕ`-indexed function; every use carries
its intended dimension.  `kron A B dB` is the Kronecker product with `B` of
dimension `dB`, exactly `np.kron` / qiskit's `Operator.tensor` (`A.tensor B`
puts `B` on the lower-significance qubits). -/

/-- Kronecker product of dense operators, second factor of dimension `dB`. -/
def kron (A B : ℕ → ℕ → QC) (dB : ℕ) : ℕ → ℕ → QC :=
  fun i j => A (i / dB) (j / dB) * B (i % dB) (j % dB)

/-- The 2×2 identity, `Operator.from_label("I")`. -/
def matI : ℕ → ℕ → QC := fun i j => if i = j then 1 else 0

/-- The 2×2 Pauli Z, `Operator.from_label("Z")`. -/
def matZ : ℕ → ℕ → QC := fun i j =>
  if i = 0 ∧ j = 0 then 1 else if i = 1 ∧ j = 1 then ⟨-1, 0⟩ else 0

/-- Entrywise sum of operators. -/
def opAdd (A B : ℕ → ℕ → QC) : ℕ → ℕ → QC := fun i j => A i j + B i j

/-- Entrywise difference of operators. -/
def opSub (A B : ℕ → ℕ → QC) : ℕ → ℕ → QC := fun i j => A i j - B i j

/-- Entrywise rational rescaling of an operator (division by a scalar). -/
def opScale (c : ℚ) (A : ℕ → ℕ → QC) : ℕ → ℕ → QC := fun i j => c • A i j

namespace HHL

/-- Source `hhl.py` line 203: `zero_op = (Operator.from_label("I") + Operator.from_label("Z")) / 2`. -/
def zero_op : ℕ → ℕ → QC := opScale (1/2) (opAdd matI matZ)

/-- Source `hhl.py` line 204: `one_op = (Operator.from_label("I") - Operator.from_label("Z")) / 2`. -/
def one_op : ℕ → ℕ → QC := opScale (1/2) (opSub matI matZ)

/-- Source `hhl.py` lines 213-223: the loop builds `op_list` with `one_op` at
position 0 and `zero_op` everywhere else, then left-folds `Operator.tensor`.
`normObsAux k` is that fold after `k` tensor steps (so `k` copies of
`zero_op` after the leading `one_op`). -/
def normObsAux : ℕ → ℕ → ℕ → QC
  | 0 => one_op
  | k + 1 => kron (normObsAux k) zero_op 2

/-- The full-width measurement operator of `_calculate_norm` on `n` qubits
(`n ≥ 1`): `one_op` tensored with `n - 1` copies of `zero_op`. -/
def normObs (n : ℕ) : ℕ → ℕ → QC := normObsAux (n - 1)

/-- Mathematical expectation value `⟨ψ|O|ψ⟩` of an operator against a
statevector, both of dimension `d`: the linear-algebra backend behind
`Statevector.expectation_value` (out of scope for the code under
verification, per the spec's external-collaborator list). -/
def expVal (d : ℕ) (O : ℕ → ℕ → QC) (ψ : ℕ → QC) : QC :=
  ∑ i in Finset.range d, ∑ j in Finset.range d, QC.conj (ψ i) * O i j * ψ j

/-- Source `hhl.py` lines 190-226, `_calculate_norm`: the simulated
statevector `ψ` of the assembled `n`-qubit circuit is measured with
`normObs n` and the code returns `np.real(np.sqrt(norm_2) / scaling)`.
For this operator the expectation value is a nonnegative real
(`expVal_normObs_im` / `expVal_normObs_re_nonneg` below), so the principal
complex square root is the real square root of the real part and the
returned float is exactly `√(re ⟨ψ|O|ψ⟩) / scaling`. -/
noncomputable def calculate_norm (n : ℕ) (ψ : ℕ → QC) (scaling : ℚ) : ℝ :=
  Real.sqrt ((expVal (2 ^ n) (normObs n) ψ).re) / (scaling : ℝ)

/-- The measurement operator as claim C1 words it: projector "one" `(I+Z)/2`
at position 0 of the tensor fold (the success qubit) and projector "zero"
`(I−Z)/2` at every other position, combined by the same fold as the code. -/
def claimNormObsAux : ℕ → ℕ → ℕ → QC
  | 0 => opScale (1/2) (opAdd matI matZ)
  | k + 1 => kron (claimNormObsAux k) (opScale (1/2) (opSub matI matZ)) 2

/-- The `n`-qubit measurement operator claim C1 describes. -/
def claimNormObs (n : ℕ) : ℕ → ℕ → QC := claimNormObsAux (n - 1)

/-- The measurement operator as the amended claim words it, built qubit by
qubit: the one-projector `(I−Z)/2` on the success qubit (the most
significant, i.e. last, wire: the flag register) and the zero-projector
`(I+Z)/2` on each remaining wire, combined as a tensor product expressed
through the bits of the row and column indices. -/
def ampNormObs (n : ℕ) : ℕ → ℕ → QC := fun i j =>
  ∏ q in Finset.range n,
    (if q = n - 1 then one_op else zero_op) (i / 2 ^ q % 2) (j / 2 ^ q % 2)

theorem zero_op_apply (a b : ℕ) (ha : a < 2) (hb : b < 2) :
    zero_op a b = if a = 0 ∧ b = 0 then 1 else 0 := by
  interval_cases a <;> interval_cases b <;>
    ext <;> simp [zero_op, opScale, opAdd, matI, matZ] <;> norm_num

theorem one_op_apply (a b : ℕ) (ha : a < 2) (hb : b < 2) :
    one_op a b = if a = 1 ∧ b = 1 then 1 else 0 := by
  interval_cases a <;> interval_cases b <;>
    ext <;> simp [one_op, opScale, opSub, matI, matZ] <;> norm_num

theorem normObsAux_apply (k : ℕ) (i j : ℕ) (hi : i < 2 ^ (k + 1)) (hj : j < 2 ^ (k + 1)) :
    normObsAux k i j = if i = 2 ^ k ∧ j = 2 ^ k then 1 else 0 := by
  induction k generalizing i j with
  | zero =>
    have hi' : i < 2 := by simpa using hi
    have hj' : j < 2 := by simpa using hj
    simpa using one_op_apply i j hi' hj'
  | succ k ih =>
    have hi2 : i / 2 < 2 ^ (k + 1) := by rw [pow_succ] at hi; omega
    have hj2 : j / 2 < 2 ^ (k + 1) := by rw [pow_succ] at hj; omega
    have key : normObsAux (k + 1) i j
        = normObsAux k (i / 2) (j / 2) * zero_op (i % 2) (j % 2) := rfl
    rw [key, ih _ _ hi2 hj2,
      zero_op_apply _ _ (Nat.mod_lt _ (by norm_num)) (Nat.mod_lt _ (by norm_num))]
    have hsplit : ∀ m : ℕ, m = 2 ^ (k + 1) ↔ (m / 2 = 2 ^ k ∧ m % 2 = 0) := by
      intro m
      have h2k : 2 ^ (k + 1) = 2 * 2 ^ k := by rw [pow_succ]; ring
      rw [h2k]
      omega
    have hiff : (i = 2 ^ (k + 1) ∧ j = 2 ^ (k + 1))
        ↔ ((i / 2 = 2 ^ k ∧ j / 2 = 2 ^ k) ∧ (i % 2 = 0 ∧ j % 2 = 0)) := by
      rw [hsplit i, hsplit j]; tauto
    by_cases hA : i / 2 = 2 ^ k ∧ j / 2 = 2 ^ k <;>
      by_cases hB : i % 2 = 0 ∧ j % 2 = 0 <;>
        simp [hA, hB, hiff]

theorem ampNormObs_apply (m : ℕ) (i j : ℕ)
    (hi : i < 2 ^ (m + 1)) (hj : j < 2 ^ (m + 1)) :
    ampNormObs (m + 1) i j = if i = 2 ^ m ∧ j = 2 ^ m then 1 else 0 := by
  induction m generalizing i j with
  | zero =>
    have hi' : i < 2 := by simpa using hi
    have hj' : j < 2 := by simpa using hj
    have : ampNormObs 1 i j = one_op (i % 2) (j % 2) := by
      simp [ampNormObs]
    rw [this, Nat.mod_eq_of_lt hi', Nat.mod_eq_of_lt hj']
    simpa using one_op_apply i j hi' hj'
  | succ m ih =>
    have hi2 : i / 2 < 2 ^ (m + 1) := by rw [pow_succ] at hi; omega
    have hj2 : j / 2 < 2 ^ (m + 1) := by rw [pow_succ] at hj; omega
    have key : ampNormObs (m + 1 + 1) i j
        = ampNormObs (m + 1) (i / 2) (j / 2) * zero_op (i % 2) (j % 2) := by
      show (∏ q in Finset.range (m + 2),
          (if q = m + 1 then one_op else zero_op) (i / 2 ^ q % 2) (j / 2 ^ q % 2)) = _
      rw [Finset.prod_range_succ']
      have hfac : ∀ q, (if q + 1 = m + 1 then one_op else zero_op)
            (i / 2 ^ (q + 1) % 2) (j / 2 ^ (q + 1) % 2)
          = (if q = m then one_op else zero_op) (i / 2 / 2 ^ q % 2) (j / 2 / 2 ^ q % 2) := by
        intro q
        have hdiv : ∀ a : ℕ, a / 2 / 2 ^ q = a / 2 ^ (q + 1) := by
          intro a
          rw [Nat.div_div_eq_div_mul, pow_succ, mul_comm]
        rw [hdiv i, hdiv j]
        simp
      rw [Finset.prod_congr rfl fun q _ => hfac q]
      have h0 : (if 0 = m + 1 then one_op else zero_op) (i / 2 ^ 0 % 2) (j / 2 ^ 0 % 2)
          = zero_op (i % 2) (j % 2) := by simp
      rw [h0]
      rfl
    rw [key, ih _ _ hi2 hj2,
      zero_op_apply _ _ (Nat.mod_lt _ (by norm_num)) (Nat.mod_lt _ (by norm_num))]
    have hsplit : ∀ a : ℕ, a = 2 ^ (m + 1) ↔ (a / 2 = 2 ^ m ∧ a % 2 = 0) := by
      intro a
      have h2k : 2 ^ (m + 1) = 2 * 2 ^ m := by rw [pow_succ]; ring
      rw [h2k]
      omega
    have hiff : (i = 2 ^ (m + 1) ∧ j = 2 ^ (m + 1))
        ↔ ((i / 2 = 2 ^ m ∧ j / 2 = 2 ^ m) ∧ (i % 2 = 0 ∧ j % 2 = 0)) := by
      rw [hsplit i, hsplit j]; tauto
    by_cases hA : i / 2 = 2 ^ m ∧ j / 2 = 2 ^ m <;>
      by_cases hB : i % 2 = 0 ∧ j % 2 = 0 <;>
        simp [hA, hB, hiff]

/-- The code's measurement operator agrees entrywise (on the relevant index
range) with the tensor product described by the amended claim. -/
theorem normObs_eq_ampNormObs (n : ℕ) (hn : 1 ≤ n) (i j : ℕ)
    (hi : i < 2 ^ n) (hj : j < 2 ^ n) : normObs n i j = ampNormObs n i j := by
  obtain ⟨m, rfl⟩ : ∃ m, n = m + 1 := ⟨n - 1, by omega⟩
  rw [ampNormObs_apply m i j hi hj]
  have : normObs (m + 1) = normObsAux m := by simp [normObs]
  rw [this, normObsAux_apply m i j hi hj]

theorem expVal_congr (d : ℕ) (O O' : ℕ → ℕ → QC) (ψ : ℕ → QC)
    (h : ∀ i j, i < d → j < d → O i j = O' i j) :
    expVal d O ψ = expVal d O' ψ :=
  Finset.sum_congr rfl fun i hi => Finset.sum_congr rfl fun j hj => by
    rw [h _ _ (Finset.mem_range.mp hi) (Finset.mem_range.mp hj)]

theorem expVal_indicator (d m : ℕ) (hm : m < d) (ψ : ℕ → QC) :
    expVal d (fun i j => if i = m ∧ j = m then 1 else 0) ψ
      = QC.conj (ψ m) * ψ m := by
  unfold expVal
  rw [Finset.sum_eq_single m]
  · rw [Finset.sum_eq_single m]
    · simp
    · intro b _ hb; simp [hb]
    · intro h; exact absurd (Finset.mem_range.mpr hm) h
  · intro b _ hb
    apply Finset.sum_eq_zero
    intro j _
    simp [hb]
  · intro h; exact absurd (Finset.mem_range.mpr hm) h

theorem expVal_normObs (n : ℕ) (hn : 1 ≤ n) (ψ : ℕ → QC) :
    expVal (2 ^ n) (normObs n) ψ
      = QC.conj (ψ (2 ^ (n - 1))) * ψ (2 ^ (n - 1)) := by
  obtain ⟨m, rfl⟩ : ∃ m, n = m + 1 := ⟨n - 1, by omega⟩
  have h1 : expVal (2 ^ (m + 1)) (normObs (m + 1)) ψ
      = expVal (2 ^ (m + 1)) (fun i j => if i = 2 ^ m ∧ j = 2 ^ m then 1 else 0) ψ := by
    apply expVal_congr
    intro i j hi hj
    have : normObs (m + 1) = normObsAux m := by simp [normObs]
    rw [this, normObsAux_apply m i j hi hj]
  rw [h1, expVal_indicator _ _ (by simpa using Nat.pow_lt_pow_right one_lt_two (by omega)) ψ]
  simp

theorem conj_mul_self_im (z : QC) : (QC.conj z * z).im = 0 := by
  simp; ring

theorem conj_mul_self_re (z : QC) : (QC.conj z * z).re = z.re ^ 2 + z.im ^ 2 := by
  simp; ring

/-- The expectation value measured by `_calculate_norm` is a real number:
its imaginary part vanishes (justifying modelling `np.real(np.sqrt(z)/s)`
as `√(z.re)/s`). -/
theorem expVal_normObs_im (n : ℕ) (hn : 1 ≤ n) (ψ : ℕ → QC) :
    (expVal (2 ^ n) (normObs n) ψ).im = 0 := by
  rw [expVal_normObs n hn ψ]; exact conj_mul_self_im _

/-- The expectation value measured by `_calculate_norm` is nonnegative. -/
theorem expVal_normObs_re_nonneg (n : ℕ) (hn : 1 ≤ n) (ψ : ℕ → QC) :
    0 ≤ (expVal (2 ^ n) (normObs n) ψ).re := by
  rw [expVal_normObs n hn ψ, conj_mul_self_re]
  positivity

end HHL

/-! ### The eigenvalue scaling factor `_get_delta`

Python's `format(v, "#0" + str(n_l + 2) + "b")[2:]` renders `v ≥ 0` in
binary, zero-padded on the left to `n_l` digits; when `v` needs more than
`n_l` binary digits the string is simply longer (the `0`-flag pads, never
truncates).  `bitLen v` below is the number of binary digits of `v ≥ 1`
(`⌊log₂ v⌋ + 1`), computed by structural recursion on a fuel argument so
that concrete instances reduce by `decide`. -/

/-- Fuel-driven binary length: `bitLenAux fuel n` counts halvings of `n`
until zero, for any `fuel ≥ n`. -/
def bitLenAux : ℕ → ℕ → ℕ
  | 0, _ => 0
  | fuel + 1, n => if n = 0 then 0 else bitLenAux fuel (n / 2) + 1

/-- Number of binary digits of `n` (`bitLen 0 = 0`). -/
def bitLen (n : ℕ) : ℕ := bitLenAux n n

theorem bitLenAux_eq (fuel fuel' n : ℕ) (h : n ≤ fuel) (h' : n ≤ fuel') :
    bitLenAux fuel n = bitLenAux fuel' n := by
  induction fuel generalizing fuel' n with
  | zero =>
    interval_cases n
    cases fuel' <;> simp [bitLenAux]
  | succ fuel ih =>
    cases fuel' with
    | zero =>
      interval_cases n
      simp [bitLenAux]
    | succ fuel' =>
      by_cases hn : n = 0
      · simp [bitLenAux, hn]
      · have hd : n / 2 ≤ fuel := by omega
        have hd' : n / 2 ≤ fuel' := by omega
        simp only [bitLenAux, if_neg hn]
        rw [ih _ _ hd hd']

theorem bitLen_zero : bitLen 0 = 0 := rfl

theorem bitLen_div2 (n : ℕ) (hn : n ≠ 0) : bitLen n = bitLen (n / 2) + 1 := by
  unfold bitLen
  rcases n with _ | m
  · omega
  · simp only [bitLenAux, if_neg hn]
    exact congrArg (· + 1) (bitLenAux_eq m ((m + 1) / 2) ((m + 1) / 2) (by omega) le_rfl)

/-- The binary length is characterized by `bitLen n ≤ k ↔ n < 2 ^ k`. -/
theorem bitLen_le_iff (n k : ℕ) : bitLen n ≤ k ↔ n < 2 ^ k := by
  induction n using Nat.strong_induction_on generalizing k with
  | _ n ih =>
    by_cases hn : n = 0
    · subst hn
      simp [bitLen_zero, Nat.pos_pow_of_pos]
    · rw [bitLen_div2 n hn]
      cases k with
      | zero =>
        constructor
        · omega
        · intro h; omega
      | succ k =>
        have ihd := ih (n / 2) (by omega) k
        constructor
        · intro h
          have : n / 2 < 2 ^ k := ihd.mp (by omega)
          rw [pow_succ]
          omega
        · intro h
          have : n / 2 < 2 ^ k := by rw [pow_succ] at h; omega
          have := ihd.mpr this
          omega

theorem lt_two_pow_bitLen (n : ℕ) : n < 2 ^ bitLen n := (bitLen_le_iff n _).mp le_rfl

/-- MSB-first binary digit `i` of `v` rendered with `len` digits. -/
def binDigit (v len i : ℕ) : ℕ := v / 2 ^ (len - 1 - i) % 2

/-- Value of an MSB-first digit string of length `len` reinterpreted with
digit `i` given weight `2^-(i+1)` — the loop of `_get_delta` lines 185-187. -/
def bitWeightSum (v len : ℕ) : ℚ :=
  ∑ i in Finset.range len, (binDigit v len i : ℚ) / 2 ^ (i + 1)

theorem bitWeightSum_eq (len : ℕ) : ∀ v : ℕ, v < 2 ^ len →
    bitWeightSum v len = (v : ℚ) / 2 ^ len := by
  induction len with
  | zero =>
    intro v hv
    interval_cases v
    simp [bitWeightSum]
  | succ len ih =>
    intro v hv
    have hsplit : v = 2 ^ len * (v / 2 ^ len) + v % 2 ^ len := (Nat.div_add_mod _ _).symm
    have hb : v / 2 ^ len < 2 := by
      have : v < 2 ^ len * 2 := by rw [← pow_succ]; exact hv
      exact Nat.div_lt_of_lt_mul (by omega)
    have hmod : v % 2 ^ len < 2 ^ len := Nat.mod_lt _ (Nat.pos_pow_of_pos _ (by norm_num))
    have hdig : ∀ i : ℕ, i < len →
        binDigit v (len + 1) (i + 1) = binDigit (v % 2 ^ len) len i := by
      intro i hilt
      unfold binDigit
      have hexp : len + 1 - 1 - (i + 1) = len - 1 - i := by omega
      rw [hexp]
      have hpows : (2 : ℕ) ^ (i + 1) * 2 ^ (len - 1 - i) = 2 ^ len := by
        rw [← pow_add]
        congr 1
        omega
      have hv' : v = v % 2 ^ len + 2 ^ (i + 1) * (v / 2 ^ len) * 2 ^ (len - 1 - i) := by
        calc v = 2 ^ len * (v / 2 ^ len) + v % 2 ^ len := hsplit
        _ = v % 2 ^ len + 2 ^ (i + 1) * (v / 2 ^ len) * 2 ^ (len - 1 - i) := by
            rw [mul_right_comm, hpows]
            ring
      conv_lhs => rw [hv']
      rw [Nat.add_mul_div_right _ _ (Nat.pos_pow_of_pos _ (by norm_num))]
      have h2 : (2 : ℕ) ^ (i + 1) * (v / 2 ^ len) = 2 * (2 ^ i * (v / 2 ^ len)) := by
        rw [pow_succ]
        ring
      rw [h2, Nat.add_mul_mod_self_left]
    unfold bitWeightSum
    rw [Finset.sum_range_succ']
    have hsum : (∑ i in Finset.range len, (binDigit v (len + 1) (i + 1) : ℚ) / 2 ^ (i + 1 + 1))
        = (∑ i in Finset.range len, (binDigit (v % 2 ^ len) len i : ℚ) / 2 ^ (i + 1)) * (1 / 2) := by
      rw [Finset.sum_mul]
      apply Finset.sum_congr rfl
      intro i hi
      rw [hdig i (Finset.mem_range.mp hi), pow_succ]
      ring
    rw [hsum]
    have ihw := ih (v % 2 ^ len) hmod
    unfold bitWeightSum at ihw
    rw [ihw]
    have hhead : binDigit v (len + 1) 0 = v / 2 ^ len := by
      unfold binDigit
      have : len + 1 - 1 - 0 = len := by omega
      rw [this]
      exact Nat.mod_eq_of_lt hb
    rw [hhead]
    have hcast : (v : ℚ) = 2 ^ len * (v / 2 ^ len : ℕ) + (v % 2 ^ len : ℕ) := by
      exact_mod_cast congrArg (fun t : ℕ => (t : ℚ)) hsplit
    rw [hcast]
    have h2len : (0 : ℚ) < 2 ^ len := by positivity
    field_simp
    ring

/-- Number of characters of Python's `format(v, "b")` (`format(0, "b") = "0"`). -/
def pyBinLen (v : ℕ) : ℕ := max 1 (bitLen v)

theorem lt_two_pow_pyBinLen (v : ℕ) : v < 2 ^ pyBinLen v :=
  lt_of_lt_of_le (lt_two_pow_bitLen v)
    (Nat.pow_le_pow_right (by norm_num) (le_max_right _ _))

namespace HHL

/-- Source `hhl.py` lines 180-183: `lambda_min_tilde`, the absolute scaled
ratio, clamped to `1` when within `1e-7` of `1`. -/
def deltaTilde (n_l : ℕ) (lambda_min lambda_max : ℚ) : ℚ :=
  if |(|lambda_min * (2 ^ n_l - 1) / lambda_max|) - 1| < 1 / 10000000 then 1
  else |lambda_min * (2 ^ n_l - 1) / lambda_max|

/-- Source `hhl.py` line 184: `int(lambda_min_tilde)`; the argument is
nonnegative, so Python's truncation toward zero is the floor. -/
def deltaInt (n_l : ℕ) (lambda_min lambda_max : ℚ) : ℕ :=
  (⌊deltaTilde n_l lambda_min lambda_max⌋).toNat

/-- Source `hhl.py` lines 168-188, `_get_delta`: render `int(lambda_min_tilde)`
with `format(·, "#0" + str(n_l + 2) + "b")[2:]` — a binary string zero-padded
to `n_l` digits, longer when the value does not fit — and reinterpret digit
`i` with weight `2^-(i+1)`. -/
def get_delta (n_l : ℕ) (lambda_min lambda_max : ℚ) : ℚ :=
  bitWeightSum (deltaInt n_l lambda_min lambda_max)
    (max n_l (pyBinLen (deltaInt n_l lambda_min lambda_max)))

/-- Claim C2's described procedure (`computeDelta` in the spec): the integer
part of the clamped scaled ratio, rendered as an `n_l`-bit binary string,
reinterpreted with weights `2^-(i+1)`. -/
def computeDelta_spec (n_l : ℕ) (lambda_min lambda_max : ℚ) : ℚ :=
  bitWeightSum (deltaInt n_l lambda_min lambda_max) n_l

theorem deltaTilde_nonneg (n_l : ℕ) (lambda_min lambda_max : ℚ) :
    0 ≤ deltaTilde n_l lambda_min lambda_max := by
  unfold deltaTilde
  split
  · norm_num
  · positivity

theorem get_delta_closed (n_l : ℕ) (lambda_min lambda_max : ℚ) :
    get_delta n_l lambda_min lambda_max
      = (deltaInt n_l lambda_min lambda_max : ℚ)
        / 2 ^ max n_l (pyBinLen (deltaInt n_l lambda_min lambda_max)) := by
  apply bitWeightSum_eq
  exact lt_of_lt_of_le (lt_two_pow_pyBinLen _)
    (Nat.pow_le_pow_right (by norm_num) (le_max_right _ _))

/-- `_get_delta` always returns a nonnegative value. -/
theorem get_delta_nonneg (n_l : ℕ) (lambda_min lambda_max : ℚ) :
    0 ≤ get_delta n_l lambda_min lambda_max := by
  rw [get_delta_closed]
  positivity

/-- `_get_delta` always returns a value strictly below `1`. -/
theorem get_delta_lt_one (n_l : ℕ) (lambda_min lambda_max : ℚ) :
    get_delta n_l lambda_min lambda_max < 1 := by
  rw [get_delta_closed]
  rw [div_lt_one (by positivity)]
  have h := lt_of_lt_of_le (lt_two_pow_pyBinLen (deltaInt n_l lambda_min lambda_max))
    (Nat.pow_le_pow_right (by norm_num) (le_max_right n_l _))
  exact_mod_cast h

/-- When `|lambda_min| ≤ |lambda_max|` (and `n_l ≥ 1`), the truncated scaled
ratio fits in `n_l` binary digits. -/
theorem deltaInt_lt (n_l : ℕ) (lambda_min lambda_max : ℚ) (hn : 1 ≤ n_l)
    (hmax : lambda_max ≠ 0) (hle : |lambda_min| ≤ |lambda_max|) :
    deltaInt n_l lambda_min lambda_max < 2 ^ n_l := by
  have h21 : (2 : ℚ) ≤ 2 ^ n_l := by
    calc (2 : ℚ) = 2 ^ 1 := (pow_one 2).symm
    _ ≤ 2 ^ n_l := pow_le_pow_right (by norm_num) hn
  have habs : 0 < |lambda_max| := abs_pos.mpr hmax
  have hc : (0 : ℚ) ≤ 2 ^ n_l - 1 := by linarith
  have ht0 : |lambda_min * (2 ^ n_l - 1) / lambda_max| ≤ 2 ^ n_l - 1 := by
    rw [abs_div, abs_mul, abs_of_nonneg hc, div_le_iff habs]
    calc |lambda_min| * (2 ^ n_l - 1) ≤ |lambda_max| * (2 ^ n_l - 1) :=
      mul_le_mul_of_nonneg_right hle hc
    _ = (2 ^ n_l - 1) * |lambda_max| := by ring
  have htilde : deltaTilde n_l lambda_min lambda_max ≤ 2 ^ n_l - 1 := by
    unfold deltaTilde
    split
    · linarith
    · exact ht0
  have hfl : (⌊deltaTilde n_l lambda_min lambda_max⌋ : ℤ) < ((2 ^ n_l : ℕ) : ℤ) := by
    rw [Int.floor_lt]
    push_cast
    linarith
  unfold deltaInt
  rcases le_or_lt (⌊deltaTilde n_l lambda_min lambda_max⌋) 0 with hneg | hpos
  · rw [Int.toNat_of_nonpos hneg]
    exact Nat.pos_pow_of_pos _ (by norm_num)
  · have hcast : ((⌊deltaTilde n_l lambda_min lambda_max⌋).toNat : ℤ)
        = ⌊deltaTilde n_l lambda_min lambda_max⌋ := Int.toNat_of_nonneg (le_of_lt hpos)
    have : (((⌊deltaTilde n_l lambda_min lambda_max⌋).toNat : ℕ) : ℤ) < ((2 ^ n_l : ℕ) : ℤ) := by
      rw [hcast]
      exact hfl
    exact_mod_cast this

/-- When the truncated scaled ratio fits in `n_l` binary digits, the code's
padded rendering has exactly `n_l` digits and `_get_delta` agrees with the
claim's `n_l`-bit procedure. -/
theorem get_delta_eq_spec (n_l : ℕ) (lambda_min lambda_max : ℚ) (hn : 1 ≤ n_l)
    (hfit : deltaInt n_l lambda_min lambda_max < 2 ^ n_l) :
    get_delta n_l lambda_min lambda_max = computeDelta_spec n_l lambda_min lambda_max := by
  have hbl : bitLen (deltaInt n_l lambda_min lambda_max) ≤ n_l :=
    (bitLen_le_iff _ _).mpr hfit
  have hlen : max n_l (pyBinLen (deltaInt n_l lambda_min lambda_max)) = n_l :=
    max_eq_left (max_le hn hbl)
  unfold get_delta computeDelta_spec
  rw [hlen]

end HHL

/-! ### Inputs, validation and register sizing (`construct_circuit`, lines 344-429)

The matrix and vector inputs are either raw numeric arrays or pre-built
encoding components.  A component (`NumPyMatrix`, `TridiagonalToeplitz`, …)
is external to `hhl.py` and is modelled by the interface `hhl.py` reads:
its declared ancilla count, optional condition-number bounds, optional
eigenvalue bounds and whether its tolerance is settable.  The external
`NumPyMatrix` constructor used for raw arrays is likewise a parameter
(`npMat`). -/

/-- Declared interface of a matrix-encoding circuit component. -/
structure MatrixComp where
  numAncillas : ℕ
  condBounds : Option (ℚ × ℚ)
  eigsBounds : Option (ℚ × ℚ)
  hasTolerance : Bool

/-- The `matrix` argument of `construct_circuit`: a component, a numeric
array (list of rows), or an unsupported value (any other Python object). -/
inductive MatrixInput where
  | comp (m : MatrixComp)
  | arr (rows : List (List QC))
  | invalid

/-- The `vector` argument of `construct_circuit`: a state-preparation
circuit with a declared qubit count, or a numeric array. -/
inductive VectorInput where
  | circuit (numQubits : ℕ)
  | arr (entries : List QC)

/-- Source lines 345-351: `nb` is the vector circuit's qubit count, or
`int(np.log2(len(vector)))` = `⌊log₂ len⌋` for an array. -/
def nbOf : VectorInput → ℕ
  | .circuit n => n
  | .arr entries => bitLen entries.length - 1

/-- Source lines 391-397: the condition-number upper bound, defaulting to 1
when the component declares no condition bounds. -/
def kappaOf (m : MatrixComp) : ℚ :=
  match m.condBounds with
  | some b => b.2
  | none => 1

/-- Python booleans are integers: `True = 1`, `False = 0`. -/
def negBit (b : Bool) : ℕ := if b then 1 else 0

/-- Exact value of `int(np.ceil(np.log(q)/np.log(b)))` for a positive
rational `q` and integer base `b ≥ 2`: the least `k : ℤ` with `q ≤ b ^ k`.
For `q ≥ 1` this is `Nat.clog b ⌈q⌉` and for `q < 1` it is
`-Nat.log b ⌊q⁻¹⌋`; `intCeilLogBase_eq_ceil_logb` below proves it equal to
`⌈Real.logb b q⌉`.  (Arguments `q ≤ 0`, on which the Python code would
fault on `int(nan)`, return the junk value `0`.) -/
def intCeilLogBase (b : ℕ) (q : ℚ) : ℤ :=
  if 1 ≤ q then (Nat.clog b ⌈q⌉.toNat : ℤ)
  else -(Nat.log b ⌊q⁻¹⌋.toNat : ℤ)

/-- Source line 401: `nl = max(nb + 1, int(np.ceil(np.log2(kappa + 1)))) + neg_vals`. -/
def computeNl (nb : ℕ) (kappa : ℚ) (negVals : Bool) : ℕ :=
  (max ((nb : ℤ) + 1) (intCeilLogBase 2 (kappa + 1))).toNat + negBit negVals

/-- Default `np.allclose` absolute tolerance `atol = 1e-8`. -/
def atolQ : ℚ := 1 / 100000000

/-- Default `np.allclose` relative tolerance `rtol = 1e-5`. -/
def rtolQ : ℚ := 1 / 100000

/-- Squared modulus of a complex entry. -/
def normSqQ (z : QC) : ℚ := z.re ^ 2 + z.im ^ 2

/-- Exact rational decision of `np.allclose`'s entrywise test
`|a - b| ≤ atol + rtol * |b|`.  Writing `d = |a-b|²`, `m = |b|²` and
`L = d - atol² - rtol²·m`, squaring the (nonnegative) inequality twice
gives the equivalent rational condition `L ≤ 0 ∨ L² ≤ 4·atol²·rtol²·m`;
`npCloseEntry_iff` below proves the equivalence. -/
def npCloseEntry (a b : QC) : Bool :=
  decide (normSqQ (a - b) - atolQ ^ 2 - rtolQ ^ 2 * normSqQ b ≤ 0) ||
  decide ((normSqQ (a - b) - atolQ ^ 2 - rtolQ ^ 2 * normSqQ b) ^ 2
    ≤ 4 * atolQ ^ 2 * rtolQ ^ 2 * normSqQ b)

/-- Entry `(i, j)` of a dense matrix given as a list of rows. -/
def matEntry (rows : List (List QC)) (i j : ℕ) : QC := (rows.getD i []).getD j 0

/-- Source line 372: `np.allclose(matrix, matrix.conj().T)` — every entry is
tolerance-close to the conjugate of its transposed mate. -/
def hermitianClose (rows : List (List QC)) : Bool :=
  (List.range rows.length).all fun i =>
    (List.range rows.length).all fun j =>
      npCloseEntry (matEntry rows i j) (QC.conj (matEntry rows j i))

namespace HHL

/-- Everything `construct_circuit` computes up to line 429: register sizes,
`kappa`, `delta`, the evolution-time update, the scaling update and the
emitted diagnostics.  `evolutionTimeCoeff = some c` means the simulation
component's `evolution_time` was set to `2π · c`; `none` means it was left
at its prior value. -/
structure Stage1Out where
  nb : ℕ
  nl : ℕ
  kappa : ℚ
  delta : ℚ
  evolutionTimeCoeff : Option ℚ
  scaling : ℚ
  warnedSmallLambdaMin : Bool
  printedScalingNote : Bool
  lambdaMinUsed : Option ℚ
  matrixAncillas : ℕ
  toleranceSetTo : Option ℚ

/-- Source lines 418-426: the eigenvalue-bounds branch with the working
(possibly substituted) `lambda_min`. -/
def boundsOut (nb nl : ℕ) (kappa lambdaMin lambdaMax : ℚ) (negVals : Bool)
    (warned : Bool) (anc : ℕ) (tolSet : Option ℚ) : Stage1Out :=
  { nb := nb, nl := nl, kappa := kappa,
    delta := get_delta (nl - negBit negVals) lambdaMin lambdaMax,
    evolutionTimeCoeff :=
      some (get_delta (nl - negBit negVals) lambdaMin lambdaMax / lambdaMin / 2 ^ negBit negVals),
    scaling := lambdaMin,
    warnedSmallLambdaMin := warned,
    printedScalingNote := false,
    lambdaMinUsed := some lambdaMin,
    matrixAncillas := anc,
    toleranceSetTo := tolSet }

/-- Source lines 386-429 for an already-resolved matrix component. -/
def stage1Core (m : MatrixComp) (nb : ℕ) (negVals : Bool)
    (epsA priorScaling : ℚ) : Stage1Out :=
  let tolSet := if m.hasTolerance then some epsA else none
  let kappa := kappaOf m
  let nl := computeNl nb kappa negVals
  match m.eigsBounds with
  | some (lambdaMin0, lambdaMax) =>
      if |lambdaMin0| < 1 / 10000000000 then
        boundsOut nb nl kappa (max (1 / 10000000000) (lambdaMax / 1000)) lambdaMax
          negVals true m.numAncillas tolSet
      else
        boundsOut nb nl kappa lambdaMin0 lambdaMax negVals false m.numAncillas tolSet
  | none =>
      { nb := nb, nl := nl, kappa := kappa, delta := 1 / 2 ^ nl,
        evolutionTimeCoeff := none, scaling := priorScaling,
        warnedSmallLambdaMin := false, printedScalingNote := true,
        lambdaMinUsed := none, matrixAncillas := m.numAncillas,
        toleranceSetTo := tolSet }

/-- Source lines 344-429: input resolution, array validation (lines
362-384, in source order: squareness, power-of-two dimension, Hermiticity
within tolerance, dimension match against the vector) and the scaling
computation.  All validation failures surface as `ValueError` before any
circuit assembly. -/
def stage1 (matrix : MatrixInput) (vector : VectorInput) (negVals : Bool)
    (epsA priorScaling : ℚ) (npMat : List (List QC) → MatrixComp) :
    Except String Stage1Out :=
  let nb := nbOf vector
  match matrix with
  | .comp m => .ok (stage1Core m nb negVals epsA priorScaling)
  | .arr rows =>
      if rows.length ≠ (rows.headD []).length then
        .error "Input matrix must be square!"
      else if rows.length ≠ 2 ^ (bitLen rows.length - 1) then
        .error "Input matrix dimension must be 2^n!"
      else if hermitianClose rows = false then
        .error "Input matrix must be hermitian!"
      else if rows.length ≠ 2 ^ nb then
        .error "Input vector dimension does not match input matrix dimension!"
      else .ok (stage1Core (npMat rows) nb negVals epsA priorScaling)
  | .invalid => .error "Invalid type for matrix."

end HHL

/-- Discriminator for `Except` results. -/
def isErr {ε α : Type} : Except ε α → Bool
  | .error _ => true
  | .ok _ => false

/-! ### Reciprocal selection (`construct_circuit`, lines 431-473) -/

/-- Linear search for the least `n` with `8N < (2n+1)³`, by structural
recursion on a fuel bound (kernel-reducible, unlike `Nat.find`). -/
def rcbAux (N : ℕ) : ℕ → ℕ → ℕ
  | 0, n => n
  | fuel + 1, n => if 8 * N < (2 * n + 1) ^ 3 then n else rcbAux N fuel (n + 1)

/-- The integer nearest to the real cube root of `N` (`8N` is even, odd
cubes are odd, so no tie can occur). -/
def roundCbrt (N : ℕ) : ℕ := rcbAux N (N + 1) 0

namespace HHL

/-- Source line 439: `a = int(round(num_values ** (2 / 3)))` with
`num_values = 2^nl`.  Since `(2^nl)^(2/3) = (4^nl)^(1/3)`, the rounded
value is the unique `n` with `(2n-1)³ ≤ 8·4^nl < (2n+1)³`;
`chebA_eq_round` below proves this rendering equal to the real-number
expression of the source. -/
def chebA (nl : ℕ) : ℕ := roundCbrt (4 ^ nl)

/-- Source lines 461-468: append `a·5^i` for `i < num_intervals`, plus
`num_values - 1` after the final left endpoint. -/
def buildBreakpoints (a m N : ℕ) : List ℕ :=
  ((List.range m).map fun i => if i = m - 1 then [a * 5 ^ i, N - 1] else [a * 5 ^ i]).join

/-- Python `int()` truncation toward zero on a real value. -/
noncomputable def intTrunc (x : ℝ) : ℤ := if 0 ≤ x then ⌊x⌋ else ⌈x⌉

/-- Source lines 442-457: the Chebyshev polynomial degree
`min(nb, int(log(1 + 16.23·sqrt(log(r)² + (π/2)²)·kappa·(2·kappa - epsilon_r)/epsilon_r)))`
with `r = 2·delta/a + sqrt(abs(1 - (2·delta/a)²))`, in exact real
arithmetic. -/
noncomputable def chebDegreeCode (nb nl : ℕ) (delta kappa epsilonR : ℚ) : ℤ :=
  min (nb : ℤ)
    (intTrunc (Real.log (1 +
      (16.23 * Real.sqrt
          ((Real.log (2 * (delta : ℝ) / (chebA nl : ℝ) +
              Real.sqrt |1 - (2 * (delta : ℝ) / (chebA nl : ℝ)) ^ 2|)) ^ 2
            + (Real.pi / 2) ^ 2)
        * (kappa : ℝ) * (2 * (kappa : ℝ) - (epsilonR : ℝ))) / (epsilonR : ℝ))))

/-- Parameters handed to the external `PiecewiseChebyshev` component. -/
structure ChebParams where
  a : ℕ
  numIntervals : ℤ
  breakpoints : List ℕ
  degree : ℤ

/-- The selected reciprocal circuit: `ExactReciprocal(nl, delta, neg_vals)`
or `PiecewiseChebyshev(lambda x: arcsin(constant / x), degree, breakpoints, nl)`
(the recorded `arcsinConstant` is that `constant = delta`). -/
inductive ReciprocalChoice where
  | exactRecip (nl : ℕ) (delta : ℚ) (negVals : Bool)
  | chebyshev (arcsinConstant : ℚ) (params : ChebParams)

/-- Reciprocal selection result: the chosen circuit parameters and the
ancilla count `na`. -/
structure Stage2Out where
  reciprocal : ReciprocalChoice
  na : ℕ

/-- Source lines 431-473: exact mode takes the simulation oracle's ancilla
count alone; approximate mode computes base point, degree, intervals and
breakpoints and takes the max of the simulation oracle's and the Chebyshev
circuit's ancilla counts (`chebAnc`, declared by the external component). -/
noncomputable def stage2 (exactReciprocal negVals : Bool) (nb nl : ℕ)
    (delta kappa epsilonR : ℚ) (simAnc chebAnc : ℕ) : Stage2Out :=
  if exactReciprocal then
    { reciprocal := .exactRecip nl delta negVals, na := simAnc }
  else
    let numValues := 2 ^ nl
    let a := chebA nl
    let numIntervals := intCeilLogBase 5 (((numValues - 1 : ℕ) : ℚ) / (a : ℚ))
    { reciprocal := .chebyshev delta
        ⟨a, numIntervals, buildBreakpoints a numIntervals.toNat numValues,
          chebDegreeCode nb nl delta kappa epsilonR⟩,
      na := max simAnc chebAnc }

/-! ### Circuit assembly (`construct_circuit`, lines 475-513) -/

/-- The instructions `construct_circuit` appends (each an opaque
sub-circuit), plus a measurement tag that it never emits. -/
inductive Gate where
  | statePrep
  | phaseEstimation
  | reciprocal (exact : Bool)
  | phaseEstimationInv
  | measure
deriving DecidableEq

/-- One appended instruction: a sub-circuit and the wire indices it is
applied to, in order. -/
structure Inst where
  gate : Gate
  qubits : List ℕ
deriving DecidableEq

/-- Consecutive wire indices `s, s+1, …, s+n-1`: a quantum register of size
`n` starting at global index `s`. -/
def qlist (s n : ℕ) : List ℕ := (List.range n).map (· + s)

/-- Source lines 475-513: registers `qb` (size `nb`), `ql` (size `nl`),
`qa` (size `na`, only when `na > 0`), `qf` (size 1), in that order; then
exactly four appends: state preparation on `qb`, phase estimation on
`ql + qb + qa[:simAnc]`, the reciprocal on `ql[::-1] + [qf[0]]` (exact) or
`ql + [qf[0]] + qa[:recAnc]` (Chebyshev), and the inverse phase estimation
on the same wires as the forward one. -/
def stage3 (nb nl na simAnc recAnc : ℕ) (exact : Bool) : List Inst :=
  let qb := qlist 0 nb
  let ql := qlist nb nl
  let qa := qlist (nb + nl) na
  let qf : List ℕ := [nb + nl + na]
  [ ⟨.statePrep, qb⟩,
    ⟨.phaseEstimation, if 0 < na then ql ++ qb ++ qa.take simAnc else ql ++ qb⟩,
    if exact then ⟨.reciprocal true, ql.reverse ++ qf⟩
    else ⟨.reciprocal false, ql ++ qf ++ qa.take recAnc⟩,
    ⟨.phaseEstimationInv, if 0 < na then ql ++ qb ++ qa.take simAnc else ql ++ qb⟩ ]

/-- Error-tolerance split fixed in `HHL.__init__` (line 110): the
conditioned-rotation share `epsilon_r = epsilon / 3`. -/
def epsilonR (epsilon : ℚ) : ℚ := epsilon / 3

/-- Error-tolerance split fixed in `HHL.__init__` (line 112): the
Hamiltonian-simulation share `epsilon_a = epsilon / 6`. -/
def epsilonA (epsilon : ℚ) : ℚ := epsilon / 6

/-- Initial solution-vector scaling set in `HHL.__init__` (line 124). -/
def defaultScaling : ℚ := 1

/-- Everything `construct_circuit` produces: the scaling data, the selected
reciprocal, the ancilla count and the assembled instruction list. -/
structure ConstructOut where
  prep : Stage1Out
  reciprocal : ReciprocalChoice
  na : ℕ
  circuit : List Inst

/-- Source lines 323-513, `construct_circuit`, as the composition of input
resolution and scaling (`stage1`), reciprocal selection (`stage2`) and
circuit assembly (`stage3`).  `priorScaling` is the solver's `scaling`
attribute on entry (1 unless a previous call overwrote it). -/
noncomputable def construct_circuit (matrix : MatrixInput) (vector : VectorInput)
    (negVals exactReciprocal : Bool) (epsilon priorScaling : ℚ)
    (npMat : List (List QC) → MatrixComp) (chebAnc : ℕ) :
    Except String ConstructOut :=
  (stage1 matrix vector negVals (epsilonA epsilon) priorScaling npMat).map fun o =>
    let s2 := stage2 exactReciprocal negVals o.nb o.nl o.delta o.kappa
      (epsilonR epsilon) o.matrixAncillas chebAnc
    { prep := o, reciprocal := s2.reciprocal, na := s2.na,
      circuit := stage3 o.nb o.nl s2.na o.matrixAncillas
        (if exactReciprocal then 0 else chebAnc) exactReciprocal }

/-- Source lines 515-578, `solve`: the request-conflict guard (lines
552-557) runs before `construct_circuit` is called (with its default
`neg_vals=True`); the subsequent norm and observable extraction are
performed by the external simulation backend on the returned circuit and
do not alter it. -/
noncomputable def solve {α β γ : Type} (matrix : MatrixInput) (vector : VectorInput)
    (observable : Option α) (observableCircuit : Option β) (postProcessing : Option γ)
    (exactReciprocal : Bool) (epsilon priorScaling : ℚ)
    (npMat : List (List QC) → MatrixComp) (chebAnc : ℕ) :
    Except String ConstructOut :=
  if observable.isSome && (observableCircuit.isSome || postProcessing.isSome) then
    .error "If observable is passed, observable_circuit and post_processing cannot be set."
  else
    construct_circuit matrix vector true exactReciprocal epsilon priorScaling npMat chebAnc

end HHL

/-! ### Correspondence of the integer renderings with the source's real
formulas -/

theorem rcbAux_spec (N : ℕ) : ∀ fuel n, 8 * N < (2 * (n + fuel) + 1) ^ 3 →
    (8 * N < (2 * rcbAux N fuel n + 1) ^ 3) ∧ n ≤ rcbAux N fuel n ∧
      ∀ m, n ≤ m → m < rcbAux N fuel n → ¬ 8 * N < (2 * m + 1) ^ 3 := by
  intro fuel
  induction fuel with
  | zero =>
    intro n h
    simp only [Nat.add_zero] at h
    refine ⟨h, le_rfl, fun m h1 h2 => ?_⟩
    exact absurd (lt_of_le_of_lt h1 h2) (lt_irrefl n)
  | succ fuel ih =>
    intro n h
    by_cases hp : 8 * N < (2 * n + 1) ^ 3
    · simp only [rcbAux, if_pos hp]
      refine ⟨hp, le_rfl, fun m h1 h2 => ?_⟩
      exact absurd (lt_of_le_of_lt h1 h2) (lt_irrefl n)
    · have h' : 8 * N < (2 * (n + 1 + fuel) + 1) ^ 3 := by
        have : n + 1 + fuel = n + (fuel + 1) := by omega
        rw [this]
        exact h
      obtain ⟨h1, h2, h3⟩ := ih (n + 1) h'
      simp only [rcbAux, if_neg hp]
      refine ⟨h1, by omega, fun m hm1 hm2 => ?_⟩
      rcases eq_or_lt_of_le hm1 with rfl | hlt
      · exact hp
      · exact h3 m (by omega) hm2

theorem roundCbrt_spec (N : ℕ) :
    8 * N < (2 * roundCbrt N + 1) ^ 3 ∧
      ∀ m, m < roundCbrt N → ¬ 8 * N < (2 * m + 1) ^ 3 := by
  have hfuel : 8 * N < (2 * (0 + (N + 1)) + 1) ^ 3 := by
    have h9 : 9 ≤ (2 * N + 3) ^ 2 := by
      calc (9 : ℕ) = 3 ^ 2 := by norm_num
      _ ≤ (2 * N + 3) ^ 2 := Nat.pow_le_pow_left (by omega) 2
    have : (2 * N + 3) ^ 3 = (2 * N + 3) ^ 2 * (2 * N + 3) := by ring
    have hge : 9 * (2 * N + 3) ≤ (2 * N + 3) ^ 3 := by
      rw [this]
      exact Nat.mul_le_mul_right _ h9
    have harg : 2 * (0 + (N + 1)) + 1 = 2 * N + 3 := by omega
    rw [harg]
    omega
  obtain ⟨h1, _, h3⟩ := rcbAux_spec N (N + 1) 0 hfuel
  exact ⟨h1, fun m hm => h3 m (Nat.zero_le m) hm⟩

theorem roundCbrt_pos (N : ℕ) (hN : 1 ≤ N) : 1 ≤ roundCbrt N := by
  by_contra h
  have h0 : roundCbrt N = 0 := by omega
  have h1 := (roundCbrt_spec N).1
  rw [h0] at h1
  norm_num at h1
  omega

theorem roundCbrt_lower (N : ℕ) (h : 1 ≤ roundCbrt N) :
    (2 * roundCbrt N - 1) ^ 3 ≤ 8 * N := by
  have hspec := (roundCbrt_spec N).2 (roundCbrt N - 1) (by omega)
  have harg : 2 * (roundCbrt N - 1) + 1 = 2 * roundCbrt N - 1 := by omega
  rw [harg] at hspec
  omega

/-- The fuel-based search computes exactly `round` of the real cube root. -/
theorem roundCbrt_eq_round (N : ℕ) (hN : 1 ≤ N) :
    (roundCbrt N : ℤ) = round ((N : ℝ) ^ ((1 : ℝ) / 3)) := by
  set n := roundCbrt N with hn
  set x : ℝ := (N : ℝ) ^ ((1 : ℝ) / 3) with hx
  have hx0 : 0 ≤ x := Real.rpow_nonneg (by positivity) _
  have hx3 : x ^ (3 : ℕ) = N := by
    rw [hx, ← Real.rpow_natCast ((N : ℝ) ^ ((1 : ℝ) / 3)) 3,
      ← Real.rpow_mul (by positivity)]
    norm_num
  have hup : x < (n : ℝ) + 1 / 2 := by
    by_contra hle
    push_neg at hle
    have hcube : ((2 * n + 1 : ℕ) : ℝ) ^ (3 : ℕ) ≤ (2 * x) ^ (3 : ℕ) := by
      apply pow_le_pow_left (by positivity)
      push_cast
      linarith
    have h8 : (2 * x) ^ (3 : ℕ) = 8 * (N : ℝ) := by
      rw [mul_pow, hx3]
      norm_num
    have hlt := (roundCbrt_spec N).1
    have hltR : (8 * N : ℝ) < ((2 * n + 1 : ℕ) : ℝ) ^ (3 : ℕ) := by
      exact_mod_cast hlt
    rw [h8] at hcube
    push_cast at hcube hltR
    linarith
  have hlow : (n : ℝ) - 1 / 2 ≤ x := by
    rcases Nat.eq_zero_or_pos n with h0 | hpos
    · rw [h0]
      push_cast
      linarith
    · have hl := roundCbrt_lower N hpos
      by_contra hlt
      push_neg at hlt
      have h1n : (1 : ℝ) ≤ (n : ℝ) := by exact_mod_cast hpos
      have hcube : (2 * x) ^ (3 : ℕ) < (2 * (n : ℝ) - 1) ^ (3 : ℕ) := by
        apply pow_lt_pow_left _ (by positivity) (by norm_num)
        linarith
      have h8 : (2 * x) ^ (3 : ℕ) = 8 * (N : ℝ) := by
        rw [mul_pow, hx3]
        norm_num
      have hlR : ((2 * n - 1 : ℕ) : ℝ) ^ (3 : ℕ) ≤ (8 * N : ℝ) := by
        exact_mod_cast hl
      have hcast : ((2 * n - 1 : ℕ) : ℝ) = 2 * (n : ℝ) - 1 := by
        have : 1 ≤ 2 * n := by omega
        push_cast [this]
        ring
      rw [hcast] at hlR
      rw [h8] at hcube
      linarith
  rw [round_eq]
  symm
  rw [Int.floor_eq_iff]
  constructor
  · push_cast
    linarith
  · push_cast
    linarith

/-- Source line 439 computes `round((2^nl)^(2/3))`: the executable rendering
`chebA` agrees with that real-number expression. -/
theorem chebA_eq_round (nl : ℕ) :
    (HHL.chebA nl : ℤ) = round (((2 : ℝ) ^ nl) ^ ((2 : ℝ) / 3)) := by
  have h4 : (1 : ℕ) ≤ 4 ^ nl := Nat.one_le_pow _ _ (by norm_num)
  unfold HHL.chebA
  rw [roundCbrt_eq_round _ h4]
  congr 1
  have hc : ((4 ^ nl : ℕ) : ℝ) = ((2 : ℝ) ^ nl) ^ (2 : ℕ) := by
    push_cast
    rw [show (4 : ℝ) = 2 ^ 2 by norm_num]
    rw [← pow_mul, ← pow_mul, Nat.mul_comm]
  rw [hc, ← Real.rpow_natCast ((2 : ℝ) ^ nl) 2, ← Real.rpow_mul (by positivity)]
  norm_num

theorem intCeilLogBase_ge_one (b : ℕ) (hb : 2 ≤ b) (q : ℚ) (h1 : 1 ≤ q) :
    intCeilLogBase b q = ⌈Real.logb b (q : ℝ)⌉ := by
  have hb1 : (1 : ℝ) < b := by
    have : 1 < b := by omega
    exact_mod_cast this
  have hqR : (0 : ℝ) < (q : ℝ) := by
    have : (0 : ℚ) < q := by linarith
    exact_mod_cast this
  unfold intCeilLogBase
  rw [if_pos h1]
  have hceil_pos : 0 < ⌈q⌉ := Int.ceil_pos.mpr (by linarith)
  set k := Nat.clog b ⌈q⌉.toNat with hk
  have hkey : ∀ j : ℕ, Real.logb b (q : ℝ) ≤ (j : ℝ) ↔ k ≤ j := by
    intro j
    rw [Real.logb_le_iff_le_rpow hb1 hqR, Real.rpow_natCast]
    constructor
    · intro hle
      have h3 : q ≤ ((b ^ j : ℕ) : ℚ) := by
        have : (q : ℝ) ≤ ((b ^ j : ℕ) : ℝ) := by
          push_cast
          exact hle
        exact_mod_cast this
      have h4 : ⌈q⌉ ≤ ((b ^ j : ℕ) : ℤ) := Int.ceil_le.mpr (by exact_mod_cast h3)
      have h5 : ⌈q⌉.toNat ≤ b ^ j := by omega
      exact (Nat.le_pow_iff_clog_le (by omega)).mp h5
    · intro hle
      have h5 : ⌈q⌉.toNat ≤ b ^ j := (Nat.le_pow_iff_clog_le (by omega)).mpr hle
      have h6 : (⌈q⌉.toNat : ℤ) = ⌈q⌉ := Int.toNat_of_nonneg (le_of_lt hceil_pos)
      have h7 : (q : ℝ) ≤ ((⌈q⌉.toNat : ℕ) : ℝ) := by
        have h8 : q ≤ ((⌈q⌉.toNat : ℕ) : ℚ) := by
          have := Int.le_ceil q
          exact_mod_cast h6 ▸ this
        exact_mod_cast h8
      calc (q : ℝ) ≤ ((⌈q⌉.toNat : ℕ) : ℝ) := h7
      _ ≤ ((b ^ j : ℕ) : ℝ) := by exact_mod_cast h5
      _ = (b : ℝ) ^ j := by push_cast; ring
  symm
  rw [Int.ceil_eq_iff]
  refine ⟨?_, ?_⟩
  · rcases Nat.eq_zero_or_pos k with h0 | hpos
    · rw [h0]
      have h1R : (1 : ℝ) ≤ (q : ℝ) := by exact_mod_cast h1
      have := Real.logb_nonneg hb1 h1R
      push_cast
      linarith
    · by_contra hcon
      push_neg at hcon
      have hle : Real.logb b (q : ℝ) ≤ ((k - 1 : ℕ) : ℝ) := by
        have hc : ((k - 1 : ℕ) : ℝ) = ((k : ℕ) : ℤ) - 1 := by
          have : (1 : ℕ) ≤ k := hpos
          push_cast [this]
          ring
        rw [hc]
        exact_mod_cast hcon
      have := (hkey (k - 1)).mp hle
      omega
  · exact_mod_cast (hkey k).mpr le_rfl

theorem intCeilLogBase_lt_one (b : ℕ) (hb : 2 ≤ b) (q : ℚ) (hq : 0 < q) (h1 : ¬ 1 ≤ q) :
    intCeilLogBase b q = ⌈Real.logb b (q : ℝ)⌉ := by
  have hb1 : (1 : ℝ) < b := by
    have : 1 < b := by omega
    exact_mod_cast this
  have hz1 : 1 < q⁻¹ := by
    rw [lt_inv_comm₀]
    · linarith
    · norm_num
    · exact hq
  have hzR : (0 : ℝ) < ((q⁻¹ : ℚ) : ℝ) := by
    have : (0 : ℚ) < q⁻¹ := by linarith
    exact_mod_cast this
  unfold intCeilLogBase
  rw [if_neg h1]
  have hlogeq : Real.logb b (q : ℝ) = -Real.logb b ((q⁻¹ : ℚ) : ℝ) := by
    have : ((q⁻¹ : ℚ) : ℝ) = ((q : ℝ))⁻¹ := by push_cast; ring
    rw [this, Real.logb_inv, neg_neg]
  rw [hlogeq, Int.ceil_neg]
  have hfl1 : 1 ≤ ⌊q⁻¹⌋ := by
    rw [Int.le_floor]
    exact_mod_cast le_of_lt hz1
  have hne : ⌊q⁻¹⌋.toNat ≠ 0 := by omega
  set j := Nat.log b ⌊q⁻¹⌋.toNat with hj
  have hfloor : ⌊Real.logb b ((q⁻¹ : ℚ) : ℝ)⌋ = (j : ℤ) := by
    rw [Int.floor_eq_iff]
    constructor
    · rw [show (((j : ℤ) : ℝ)) = ((j : ℕ) : ℝ) by push_cast; ring,
        Real.le_logb_iff_rpow_le hb1 hzR, Real.rpow_natCast]
      have h2 : b ^ j ≤ ⌊q⁻¹⌋.toNat := Nat.pow_log_le_self b hne
      have h3 : ((b ^ j : ℕ) : ℚ) ≤ q⁻¹ := by
        have h4 : ((⌊q⁻¹⌋.toNat : ℕ) : ℚ) ≤ q⁻¹ := by
          have h5 : (⌊q⁻¹⌋.toNat : ℤ) = ⌊q⁻¹⌋ := Int.toNat_of_nonneg (by omega)
          have h6 := Int.floor_le q⁻¹
          calc ((⌊q⁻¹⌋.toNat : ℕ) : ℚ) = ((⌊q⁻¹⌋ : ℤ) : ℚ) := by exact_mod_cast h5
          _ ≤ q⁻¹ := h6
        calc ((b ^ j : ℕ) : ℚ) ≤ ((⌊q⁻¹⌋.toNat : ℕ) : ℚ) := by exact_mod_cast h2
        _ ≤ q⁻¹ := h4
      have h9 : ((b ^ j : ℕ) : ℝ) ≤ ((q⁻¹ : ℚ) : ℝ) := by exact_mod_cast h3
      calc (b : ℝ) ^ j = ((b ^ j : ℕ) : ℝ) := by push_cast; ring
      _ ≤ ((q⁻¹ : ℚ) : ℝ) := h9
    · rw [show (((j : ℤ) : ℝ)) + 1 = ((j + 1 : ℕ) : ℝ) by push_cast; ring,
        Real.logb_lt_iff_lt_rpow hb1 hzR, Real.rpow_natCast]
      have h2 : ⌊q⁻¹⌋.toNat < b ^ (j + 1) := Nat.lt_pow_succ_log_self (by omega) _
      have h3 : q⁻¹ < ((b ^ (j + 1) : ℕ) : ℚ) := by
        have h6 := Int.lt_floor_add_one q⁻¹
        have h7 : ((⌊q⁻¹⌋ : ℤ) : ℚ) + 1 ≤ ((b ^ (j + 1) : ℕ) : ℚ) := by
          have : ⌊q⁻¹⌋ + 1 ≤ ((b ^ (j + 1) : ℕ) : ℤ) := by omega
          exact_mod_cast this
        linarith
      have h9 : ((q⁻¹ : ℚ) : ℝ) < ((b ^ (j + 1) : ℕ) : ℝ) := by exact_mod_cast h3
      calc ((q⁻¹ : ℚ) : ℝ) < ((b ^ (j + 1) : ℕ) : ℝ) := h9
      _ = (b : ℝ) ^ (j + 1) := by push_cast; ring
  rw [hfloor]

/-- The exact integer rendering of `int(np.ceil(np.log(q)/np.log(b)))`
agrees with the real-number expression for every positive rational `q`. -/
theorem intCeilLogBase_eq (b : ℕ) (hb : 2 ≤ b) (q : ℚ) (hq : 0 < q) :
    intCeilLogBase b q = ⌈Real.logb b (q : ℝ)⌉ := by
  by_cases h1 : 1 ≤ q
  · exact intCeilLogBase_ge_one b hb q h1
  · exact intCeilLogBase_lt_one b hb q hq h1

theorem computeNl_ge (nb : ℕ) (kappa : ℚ) (neg : Bool) :
    nb + 1 ≤ computeNl nb kappa neg := by
  unfold computeNl
  have h2 : ((nb : ℤ) + 1) ≤ max ((nb : ℤ) + 1) (intCeilLogBase 2 (kappa + 1)) :=
    le_max_left _ _
  have h3 := Int.toNat_le_toNat h2
  have h4 : ((nb : ℤ) + 1).toNat = nb + 1 := by omega
  cases neg <;> simp only [negBit] <;> omega

theorem computeNl_toggle (nb : ℕ) (kappa : ℚ) :
    computeNl nb kappa true = computeNl nb kappa false + 1 := by
  unfold computeNl negBit
  simp

/-- With a positive `kappa + 1` the register size computed at line 401 is
exactly the claim's formula `max(nb + 1, ⌈log₂(kappa + 1)⌉) + neg_vals`. -/
theorem computeNl_cast (nb : ℕ) (kappa : ℚ) (neg : Bool) (hκ : 0 < kappa + 1) :
    (computeNl nb kappa neg : ℤ)
      = max ((nb : ℤ) + 1) ⌈Real.logb 2 ((kappa : ℝ) + 1)⌉ + negBit neg := by
  unfold computeNl
  have hlog := intCeilLogBase_eq 2 le_rfl (kappa + 1) hκ
  have hcast : ((kappa + 1 : ℚ) : ℝ) = (kappa : ℝ) + 1 := by push_cast; ring
  rw [show ⌈Real.logb 2 ((kappa : ℝ) + 1)⌉ = intCeilLogBase 2 (kappa + 1) by
    rw [hlog, hcast]
    norm_num]
  have hmax_nonneg : 0 ≤ max ((nb : ℤ) + 1) (intCeilLogBase 2 (kappa + 1)) :=
    le_trans (by positivity) (le_max_left _ _)
  have htn : ((max ((nb : ℤ) + 1) (intCeilLogBase 2 (kappa + 1))).toNat : ℤ)
      = max ((nb : ℤ) + 1) (intCeilLogBase 2 (kappa + 1)) :=
    Int.toNat_of_nonneg hmax_nonneg
  push_cast
  rw [htn]

theorem normSqQ_nonneg (z : QC) : 0 ≤ normSqQ z := by
  unfold normSqQ
  positivity

/-- The rational double-squaring test of `npCloseEntry` decides exactly the
real-number inequality `|a - b| ≤ atol + rtol·|b|` that `np.allclose`
checks entrywise. -/
theorem npCloseEntry_iff (a b : QC) :
    npCloseEntry a b = true ↔
      Real.sqrt ((normSqQ (a - b) : ℚ) : ℝ)
        ≤ ((atolQ : ℚ) : ℝ) + ((rtolQ : ℚ) : ℝ) * Real.sqrt ((normSqQ b : ℚ) : ℝ) := by
  set dq := normSqQ (a - b) with hdq
  set mq := normSqQ b with hmq
  set d : ℝ := ((dq : ℚ) : ℝ) with hd
  set m : ℝ := ((mq : ℚ) : ℝ) with hm
  set A : ℝ := ((atolQ : ℚ) : ℝ) with hA
  set R : ℝ := ((rtolQ : ℚ) : ℝ) with hR
  have hd0 : 0 ≤ d := by
    rw [hd]
    exact_mod_cast normSqQ_nonneg (a - b)
  have hm0 : 0 ≤ m := by
    rw [hm]
    exact_mod_cast normSqQ_nonneg b
  have hA0 : 0 < A := by
    rw [hA]
    norm_num [atolQ]
  have hR0 : 0 < R := by
    rw [hR]
    norm_num [rtolQ]
  set x : ℝ := Real.sqrt d with hx
  set s : ℝ := Real.sqrt m with hs
  have hx0 : 0 ≤ x := Real.sqrt_nonneg _
  have hs0 : 0 ≤ s := Real.sqrt_nonneg _
  have hx2 : x ^ 2 = d := Real.sq_sqrt hd0
  have hs2 : s ^ 2 = m := Real.sq_sqrt hm0
  have hbool : npCloseEntry a b = true ↔
      (dq - atolQ ^ 2 - rtolQ ^ 2 * mq ≤ 0 ∨
        (dq - atolQ ^ 2 - rtolQ ^ 2 * mq) ^ 2 ≤ 4 * atolQ ^ 2 * rtolQ ^ 2 * mq) := by
    unfold npCloseEntry
    rw [Bool.or_eq_true, decide_eq_true_eq, decide_eq_true_eq]
  have hcases : (dq - atolQ ^ 2 - rtolQ ^ 2 * mq ≤ 0 ∨
      (dq - atolQ ^ 2 - rtolQ ^ 2 * mq) ^ 2 ≤ 4 * atolQ ^ 2 * rtolQ ^ 2 * mq) ↔
      (d - A ^ 2 - R ^ 2 * m ≤ 0 ∨
        (d - A ^ 2 - R ^ 2 * m) ^ 2 ≤ 4 * A ^ 2 * R ^ 2 * m) := by
    rw [hd, hm, hA, hR]
    constructor
    · rintro (h | h)
      · left; exact_mod_cast h
      · right; exact_mod_cast h
    · rintro (h | h)
      · left; exact_mod_cast h
      · right; exact_mod_cast h
  rw [hbool, hcases]
  have hsq : (A + R * s) ^ 2 = A ^ 2 + 2 * A * R * s + R ^ 2 * m := by
    rw [← hs2]; ring
  constructor
  · rintro (h | h)
    · have hle : d ≤ (A + R * s) ^ 2 := by
        rw [hsq]
        have : 0 ≤ 2 * A * R * s := by positivity
        linarith
      calc x = Real.sqrt d := hx
      _ ≤ Real.sqrt ((A + R * s) ^ 2) := Real.sqrt_le_sqrt hle
      _ = A + R * s := Real.sqrt_sq (by positivity)
    · have h2s : Real.sqrt ((2 * A * R * s) ^ 2) = 2 * A * R * s :=
        Real.sqrt_sq (by positivity)
      have h4 : (2 * A * R * s) ^ 2 = 4 * A ^ 2 * R ^ 2 * m := by
        rw [← hs2]; ring
      have habs : d - A ^ 2 - R ^ 2 * m ≤ 2 * A * R * s := by
        have h5 : Real.sqrt ((d - A ^ 2 - R ^ 2 * m) ^ 2) ≤ Real.sqrt ((2 * A * R * s) ^ 2) := by
          apply Real.sqrt_le_sqrt
          rw [h4]
          exact h
        rw [h2s, Real.sqrt_sq_eq_abs] at h5
        calc d - A ^ 2 - R ^ 2 * m ≤ |d - A ^ 2 - R ^ 2 * m| := le_abs_self _
        _ ≤ 2 * A * R * s := h5
      have hle : d ≤ (A + R * s) ^ 2 := by
        rw [hsq]
        linarith
      calc x = Real.sqrt d := hx
      _ ≤ Real.sqrt ((A + R * s) ^ 2) := Real.sqrt_le_sqrt hle
      _ = A + R * s := Real.sqrt_sq (by positivity)
  · intro h
    have hd2 : d ≤ (A + R * s) ^ 2 := by
      calc d = x ^ 2 := hx2.symm
      _ ≤ (A + R * s) ^ 2 := by
        apply pow_le_pow_left hx0 h
    rw [hsq] at hd2
    have hL : d - A ^ 2 - R ^ 2 * m ≤ 2 * A * R * s := by linarith
    by_cases hLpos : d - A ^ 2 - R ^ 2 * m ≤ 0
    · left; exact hLpos
    · right
      push_neg at hLpos
      have h4 : (2 * A * R * s) ^ 2 = 4 * A ^ 2 * R ^ 2 * m := by
        rw [← hs2]; ring
      calc (d - A ^ 2 - R ^ 2 * m) ^ 2 ≤ (2 * A * R * s) ^ 2 :=
        pow_le_pow_left (le_of_lt hLpos) hL 2
      _ = 4 * A ^ 2 * R ^ 2 * m := h4

theorem two_le_chebA (nl : ℕ) (h : 1 ≤ nl) : 2 ≤ HHL.chebA nl := by
  have h4 : (4 : ℕ) ≤ 4 ^ nl := by
    calc (4 : ℕ) = 4 ^ 1 := by norm_num
    _ ≤ 4 ^ nl := Nat.pow_le_pow_right (by norm_num) h
  have hs := (roundCbrt_spec (4 ^ nl)).1
  unfold HHL.chebA
  by_contra hcon
  push_neg at hcon
  have hr : 2 * roundCbrt (4 ^ nl) + 1 ≤ 3 := by omega
  have hcube : (2 * roundCbrt (4 ^ nl) + 1) ^ 3 ≤ 27 := by
    calc (2 * roundCbrt (4 ^ nl) + 1) ^ 3 ≤ 3 ^ 3 := Nat.pow_le_pow_left hr 3
    _ = 27 := by norm_num
  omega

namespace HHL

/-- Expectation value against a computational basis state picks out the
corresponding diagonal entry of the operator. -/
theorem expVal_basis (d m : ℕ) (hm : m < d) (O : ℕ → ℕ → QC) :
    expVal d O (fun i => if i = m then 1 else 0) = O m m := by
  unfold expVal
  rw [Finset.sum_eq_single m]
  · rw [Finset.sum_eq_single m]
    · have hc : QC.conj 1 = 1 := by
        ext <;> simp
      simp [hc]
    · intro b _ hb
      simp [hb]
    · intro h
      exact absurd (Finset.mem_range.mpr hm) h
  · intro b _ hb
    apply Finset.sum_eq_zero
    intro j _
    simp [hb]
  · intro h
    exact absurd (Finset.mem_range.mpr hm) h

end HHL

/-! ### The claims -/

/-- Claim C1, counterexample: at the 2-qubit statevector `|10⟩` (success
qubit set, remaining qubit zero) with scaling 1, `_calculate_norm` returns
1, while the operator the claim describes — "one" = (I+Z)/2 on the success
qubit, "zero" = (I−Z)/2 on the remaining qubit — would give 0: the claim
has the two projector formulas swapped relative to the code (lines
203-204 define `zero_op = (I+Z)/2` and `one_op = (I−Z)/2`). -/
theorem claim_C1_cex :
    HHL.calculate_norm 2 (fun i => if i = 2 then 1 else 0) 1
      ≠ Real.sqrt ((HHL.expVal (2 ^ 2) (HHL.claimNormObs 2)
          (fun i => if i = 2 then 1 else 0)).re) / ((1 : ℚ) : ℝ) := by
  have hL : HHL.calculate_norm 2 (fun i => if i = 2 then 1 else 0) 1 = 1 := by
    unfold HHL.calculate_norm
    rw [HHL.expVal_basis (2 ^ 2) 2 (by norm_num) (HHL.normObs 2)]
    have h2 : HHL.normObs 2 2 2 = 1 := by
      have := HHL.normObsAux_apply 1 2 2 (by norm_num) (by norm_num)
      unfold HHL.normObs
      norm_num at this ⊢
      exact this
    rw [h2]
    norm_num
  have hR : Real.sqrt ((HHL.expVal (2 ^ 2) (HHL.claimNormObs 2)
      (fun i => if i = 2 then 1 else 0)).re) / ((1 : ℚ) : ℝ) = 0 := by
    rw [HHL.expVal_basis (2 ^ 2) 2 (by norm_num) (HHL.claimNormObs 2)]
    have h0 : HHL.claimNormObs 2 2 2 = 0 := by
      show HHL.claimNormObsAux 1 2 2 = 0
      have hk : HHL.claimNormObsAux 1 2 2
          = HHL.claimNormObsAux 0 1 1 * opScale (1/2) (opSub matI matZ) 0 0 := rfl
      rw [hk]
      have h00 : HHL.claimNormObsAux 0 1 1 = 0 := by
        ext <;> simp [HHL.claimNormObsAux, opScale, opAdd, matI, matZ]
      rw [h00]
      exact zero_mul _
    rw [h0]
    norm_num
  rw [hL, hR]
  norm_num

/-- Claim C1 as amended: the norm estimator's operator is the one-projector
`(I−Z)/2` on the success qubit and the zero-projector `(I+Z)/2` on every
remaining (eigenvalue and ancilla) qubit — `ampNormObs`, the amended
claim's qubit-by-qubit tensor product — and the returned value is
`sqrt(re ⟨ψ|O|ψ⟩)/scaling` against the simulated statevector. -/
theorem claim_C1 (n : ℕ) (hn : 1 ≤ n) (ψ : ℕ → QC) (scaling : ℚ) :
    HHL.calculate_norm n ψ scaling
      = Real.sqrt ((HHL.expVal (2 ^ n) (HHL.ampNormObs n) ψ).re) / (scaling : ℝ) := by
  unfold HHL.calculate_norm
  rw [HHL.expVal_congr (2 ^ n) (HHL.normObs n) (HHL.ampNormObs n) ψ
    (fun i j hi hj => HHL.normObs_eq_ampNormObs n hn i j hi hj)]

theorem claim_C1_witness : 1 ≤ 2 ∧
    HHL.calculate_norm 2 (fun i => if i = 2 then 1 else 0) 1
      = Real.sqrt ((HHL.expVal (2 ^ 2) (HHL.ampNormObs 2)
          (fun i => if i = 2 then 1 else 0)).re) / ((1 : ℚ) : ℝ) :=
  ⟨by norm_num, claim_C1 2 (by norm_num) (fun i => if i = 2 then 1 else 0) 1⟩

/-- Claim C2, counterexample: at `n_l = 1`, `lambda_min = 2`,
`lambda_max = 1` (nonzero), the truncated scaled ratio is `2`, which does
not fit in one binary digit: the code renders the two-digit string `"10"`
and returns `1/2`, while the claim's `n_l`-bit procedure yields `0`. -/
theorem claim_C2_cex : HHL.get_delta 1 2 1 ≠ HHL.computeDelta_spec 1 2 1 := by
  have hInt : HHL.deltaInt 1 2 1 = 2 := by
    have h0 : HHL.deltaTilde 1 2 1 = 2 := by
      unfold HHL.deltaTilde
      norm_num
    unfold HHL.deltaInt
    rw [h0]
    simp
  have h1 : HHL.get_delta 1 2 1 = 1 / 2 := by
    unfold HHL.get_delta
    rw [hInt]
    norm_num [bitWeightSum, binDigit, pyBinLen, bitLen, bitLenAux, Finset.sum_range_succ]
  have h2 : HHL.computeDelta_spec 1 2 1 = 0 := by
    unfold HHL.computeDelta_spec
    rw [hInt]
    norm_num [bitWeightSum, binDigit, Finset.sum_range_succ]
  rw [h1, h2]
  norm_num

/-- Claim C2 as amended: for `n_l ≥ 1` and `lambda_max ≠ 0`, *provided the
integer part fits in `n_l` binary digits (in particular whenever
`|lambda_min| ≤ |lambda_max|`)*, `_get_delta` returns exactly the claim's
`n_l`-bit fixed-point value; the result is nonnegative and strictly below 1
(these two bounds hold for all inputs, `get_delta_nonneg` /
`get_delta_lt_one`). -/
theorem claim_C2 (n_l : ℕ) (lambda_min lambda_max : ℚ) (hn : 1 ≤ n_l)
    (hmax : lambda_max ≠ 0) (hle : |lambda_min| ≤ |lambda_max|) :
    HHL.get_delta n_l lambda_min lambda_max
        = HHL.computeDelta_spec n_l lambda_min lambda_max ∧
      0 ≤ HHL.get_delta n_l lambda_min lambda_max ∧
      HHL.get_delta n_l lambda_min lambda_max < 1 :=
  ⟨HHL.get_delta_eq_spec n_l lambda_min lambda_max hn
      (HHL.deltaInt_lt n_l lambda_min lambda_max hn hmax hle),
    HHL.get_delta_nonneg n_l lambda_min lambda_max,
    HHL.get_delta_lt_one n_l lambda_min lambda_max⟩

theorem claim_C2_witness : (1 ≤ 1 ∧ (2 : ℚ) ≠ 0 ∧ |(1 : ℚ)| ≤ |(2 : ℚ)|) ∧
    (HHL.get_delta 1 1 2 = HHL.computeDelta_spec 1 1 2 ∧
      0 ≤ HHL.get_delta 1 1 2 ∧ HHL.get_delta 1 1 2 < 1) :=
  ⟨⟨le_rfl, by norm_num, by norm_num⟩,
    claim_C2 1 1 2 le_rfl (by norm_num) (by norm_num)⟩

namespace HHL

/-- With a component matrix, `construct_circuit` always succeeds and is the
composition of the three stages. -/
theorem construct_circuit_comp (m : MatrixComp) (vec : VectorInput) (neg exact : Bool)
    (eps prior : ℚ) (npMat : List (List QC) → MatrixComp) (chebAnc : ℕ) :
    construct_circuit (.comp m) vec neg exact eps prior npMat chebAnc
      = .ok
        (let o := stage1Core m (nbOf vec) neg (epsilonA eps) prior
         let s2 := stage2 exact neg o.nb o.nl o.delta o.kappa (epsilonR eps)
           o.matrixAncillas chebAnc
         { prep := o, reciprocal := s2.reciprocal, na := s2.na,
           circuit := stage3 o.nb o.nl s2.na o.matrixAncillas
             (if exact then 0 else chebAnc) exact }) := rfl

theorem stage1Core_small (m : MatrixComp) (nb : ℕ) (neg : Bool) (e p : ℚ)
    (lmin lmax : ℚ) (hb : m.eigsBounds = some (lmin, lmax))
    (hsmall : |lmin| < 1 / 10000000000) :
    stage1Core m nb neg e p
      = boundsOut nb (computeNl nb (kappaOf m) neg) (kappaOf m)
          (max (1 / 10000000000) (lmax / 1000)) lmax neg true m.numAncillas
          (if m.hasTolerance then some e else none) := by
  unfold stage1Core
  rw [hb]
  dsimp only
  rw [if_pos hsmall]

theorem stage1Core_notsmall (m : MatrixComp) (nb : ℕ) (neg : Bool) (e p : ℚ)
    (lmin lmax : ℚ) (hb : m.eigsBounds = some (lmin, lmax))
    (hsmall : ¬ |lmin| < 1 / 10000000000) :
    stage1Core m nb neg e p
      = boundsOut nb (computeNl nb (kappaOf m) neg) (kappaOf m)
          lmin lmax neg false m.numAncillas
          (if m.hasTolerance then some e else none) := by
  unfold stage1Core
  rw [hb]
  dsimp only
  rw [if_neg hsmall]

theorem stage1Core_eigs_none (m : MatrixComp) (nb : ℕ) (neg : Bool) (e p : ℚ)
    (hb : m.eigsBounds = none) :
    stage1Core m nb neg e p
      = { nb := nb, nl := computeNl nb (kappaOf m) neg, kappa := kappaOf m,
          delta := 1 / 2 ^ computeNl nb (kappaOf m) neg,
          evolutionTimeCoeff := none, scaling := p,
          warnedSmallLambdaMin := false, printedScalingNote := true,
          lambdaMinUsed := none, matrixAncillas := m.numAncillas,
          toleranceSetTo := if m.hasTolerance then some e else none } := by
  unfold stage1Core
  rw [hb]

theorem stage1Core_nb (m : MatrixComp) (nb : ℕ) (neg : Bool) (e p : ℚ) :
    (stage1Core m nb neg e p).nb = nb := by
  rcases hb : m.eigsBounds with _ | ⟨lmin, lmax⟩
  · rw [stage1Core_eigs_none m nb neg e p hb]
  · by_cases h : |lmin| < 1 / 10000000000
    · rw [stage1Core_small m nb neg e p lmin lmax hb h]
      rfl
    · rw [stage1Core_notsmall m nb neg e p lmin lmax hb h]
      rfl

theorem stage1Core_nl (m : MatrixComp) (nb : ℕ) (neg : Bool) (e p : ℚ) :
    (stage1Core m nb neg e p).nl = computeNl nb (kappaOf m) neg := by
  rcases hb : m.eigsBounds with _ | ⟨lmin, lmax⟩
  · rw [stage1Core_eigs_none m nb neg e p hb]
  · by_cases h : |lmin| < 1 / 10000000000
    · rw [stage1Core_small m nb neg e p lmin lmax hb h]
      rfl
    · rw [stage1Core_notsmall m nb neg e p lmin lmax hb h]
      rfl

end HHL

/-- Claim C3: with a component matrix and a circuit vector of `nbv` qubits,
`construct_circuit` sizes the eigenvalue register as
`nl = max(nbv + 1, ⌈log₂(kappa + 1)⌉) + (1 if neg_vals else 0)` where
`kappa` is the declared condition-number upper bound (1 when no condition
bounds are declared, by definition of `kappaOf`); consequently
`nl ≥ nbv + 1` always holds and toggling `neg_vals` from false to true with
everything else fixed increases `nl` by exactly one. -/
theorem claim_C3 (m : MatrixComp) (nbv : ℕ) (exact : Bool) (eps prior : ℚ)
    (npMat : List (List QC) → MatrixComp) (chebAnc : ℕ) :
    ∃ oT oF : HHL.ConstructOut,
      HHL.construct_circuit (.comp m) (.circuit nbv) true exact eps prior npMat chebAnc
          = .ok oT ∧
      HHL.construct_circuit (.comp m) (.circuit nbv) false exact eps prior npMat chebAnc
          = .ok oF ∧
      nbv + 1 ≤ oF.prep.nl ∧ nbv + 1 ≤ oT.prep.nl ∧
      oT.prep.nl = oF.prep.nl + 1 ∧
      (m.condBounds = none → kappaOf m = 1) ∧
      (0 < kappaOf m + 1 →
        (oF.prep.nl : ℤ) = max ((nbv : ℤ) + 1) ⌈Real.logb 2 ((kappaOf m : ℝ) + 1)⌉ ∧
        (oT.prep.nl : ℤ)
          = max ((nbv : ℤ) + 1) ⌈Real.logb 2 ((kappaOf m : ℝ) + 1)⌉ + 1) := by
  refine ⟨_, _, HHL.construct_circuit_comp m (.circuit nbv) true exact eps prior npMat chebAnc,
    HHL.construct_circuit_comp m (.circuit nbv) false exact eps prior npMat chebAnc,
    ?_, ?_, ?_, ?_, ?_⟩
  · show nbv + 1 ≤ (HHL.stage1Core m (nbOf (.circuit nbv)) false (HHL.epsilonA eps) prior).nl
    rw [HHL.stage1Core_nl]
    exact computeNl_ge nbv (kappaOf m) false
  · show nbv + 1 ≤ (HHL.stage1Core m (nbOf (.circuit nbv)) true (HHL.epsilonA eps) prior).nl
    rw [HHL.stage1Core_nl]
    exact computeNl_ge nbv (kappaOf m) true
  · show (HHL.stage1Core m (nbOf (.circuit nbv)) true (HHL.epsilonA eps) prior).nl
        = (HHL.stage1Core m (nbOf (.circuit nbv)) false (HHL.epsilonA eps) prior).nl + 1
    rw [HHL.stage1Core_nl, HHL.stage1Core_nl]
    exact computeNl_toggle nbv (kappaOf m)
  · intro h
    unfold kappaOf
    rw [h]
  · intro hκ
    constructor
    · show ((HHL.stage1Core m nbv false (HHL.epsilonA eps) prior).nl : ℤ) = _
      rw [HHL.stage1Core_nl, computeNl_cast nbv (kappaOf m) false hκ]
      simp [negBit]
    · show ((HHL.stage1Core m nbv true (HHL.epsilonA eps) prior).nl : ℤ) = _
      rw [HHL.stage1Core_nl, computeNl_cast nbv (kappaOf m) true hκ]
      simp [negBit]

theorem claim_C3_witness :
    ∃ oT oF : HHL.ConstructOut,
      HHL.construct_circuit (.comp ⟨0, none, none, false⟩) (.circuit 1) true true 1 1
          (fun _ => ⟨0, none, none, false⟩) 0 = .ok oT ∧
      HHL.construct_circuit (.comp ⟨0, none, none, false⟩) (.circuit 1) false true 1 1
          (fun _ => ⟨0, none, none, false⟩) 0 = .ok oF ∧
      1 + 1 ≤ oF.prep.nl ∧ 1 + 1 ≤ oT.prep.nl ∧
      oT.prep.nl = oF.prep.nl + 1 ∧
      ((⟨0, none, none, false⟩ : MatrixComp).condBounds = none
        → kappaOf ⟨0, none, none, false⟩ = 1) ∧
      (0 < kappaOf ⟨0, none, none, false⟩ + 1 →
        (oF.prep.nl : ℤ) = max ((1 : ℤ) + 1)
          ⌈Real.logb 2 ((kappaOf ⟨0, none, none, false⟩ : ℝ) + 1)⌉ ∧
        (oT.prep.nl : ℤ) = max ((1 : ℤ) + 1)
          ⌈Real.logb 2 ((kappaOf ⟨0, none, none, false⟩ : ℝ) + 1)⌉ + 1) :=
  claim_C3 ⟨0, none, none, false⟩ 1 true 1 1 (fun _ => ⟨0, none, none, false⟩) 0

/-- Claim C5: whenever the matrix component declares eigenvalue bounds with
`|lambda_min| < 1e-10`, `construct_circuit` substitutes `lambda_min` with
`max(1e-10, lambda_max / 1000)`, emits the diagnostic warning, and proceeds
(returns a circuit, using the substituted value as the scaling) rather than
raising. -/
theorem claim_C5 (m : MatrixComp) (vec : VectorInput) (neg exact : Bool)
    (eps prior : ℚ) (npMat : List (List QC) → MatrixComp) (chebAnc : ℕ)
    (lmin lmax : ℚ) (hb : m.eigsBounds = some (lmin, lmax))
    (hsmall : |lmin| < 1 / 10000000000) :
    ∃ out : HHL.ConstructOut,
      HHL.construct_circuit (.comp m) vec neg exact eps prior npMat chebAnc = .ok out ∧
      out.prep.lambdaMinUsed = some (max (1 / 10000000000) (lmax / 1000)) ∧
      out.prep.warnedSmallLambdaMin = true ∧
      out.prep.scaling = max (1 / 10000000000) (lmax / 1000) := by
  have hcore := HHL.stage1Core_small m (nbOf vec) neg (HHL.epsilonA eps) prior
    lmin lmax hb hsmall
  refine ⟨_, HHL.construct_circuit_comp m vec neg exact eps prior npMat chebAnc,
    ?_, ?_, ?_⟩
  · show (HHL.stage1Core m (nbOf vec) neg (HHL.epsilonA eps) prior).lambdaMinUsed = _
    rw [hcore]
    rfl
  · show (HHL.stage1Core m (nbOf vec) neg (HHL.epsilonA eps) prior).warnedSmallLambdaMin = true
    rw [hcore]
    rfl
  · show (HHL.stage1Core m (nbOf vec) neg (HHL.epsilonA eps) prior).scaling = _
    rw [hcore]
    rfl

theorem claim_C5_witness :
    ((⟨0, none, some (0, 1), false⟩ : MatrixComp).eigsBounds = some (0, 1) ∧
      |(0 : ℚ)| < 1 / 10000000000) ∧
    ∃ out : HHL.ConstructOut,
      HHL.construct_circuit (.comp ⟨0, none, some (0, 1), false⟩) (.circuit 1) true true 1 1
          (fun _ => ⟨0, none, none, false⟩) 0 = .ok out ∧
      out.prep.lambdaMinUsed = some (max (1 / 10000000000) ((1 : ℚ) / 1000)) ∧
      out.prep.warnedSmallLambdaMin = true ∧
      out.prep.scaling = max (1 / 10000000000) ((1 : ℚ) / 1000) :=
  ⟨⟨rfl, by norm_num⟩,
    claim_C5 ⟨0, none, some (0, 1), false⟩ (.circuit 1) true true 1 1
      (fun _ => ⟨0, none, none, false⟩) 0 0 1 rfl (by norm_num)⟩

/-- Claim C9: when eigenvalue bounds are declared, `construct_circuit`
computes `delta` with `_get_delta` over `nl - neg_vals` bits (the sign
qubit excluded) from the working `lambda_min` (the substituted value when
the near-zero guard fired, the declared one otherwise), sets the
simulation oracle's evolution time to `2π·delta/lambda_min/2^neg_vals`
(recorded as the coefficient of `2π`), and overwrites the solver's scaling
with that `lambda_min`. -/
theorem claim_C9 (m : MatrixComp) (vec : VectorInput) (neg exact : Bool)
    (eps prior : ℚ) (npMat : List (List QC) → MatrixComp) (chebAnc : ℕ)
    (lmin lmax : ℚ) (hb : m.eigsBounds = some (lmin, lmax)) :
    ∃ out : HHL.ConstructOut,
      HHL.construct_circuit (.comp m) vec neg exact eps prior npMat chebAnc = .ok out ∧
      out.prep.delta = HHL.get_delta (out.prep.nl - negBit neg)
        (if |lmin| < 1 / 10000000000 then max (1 / 10000000000) (lmax / 1000) else lmin)
        lmax ∧
      out.prep.evolutionTimeCoeff = some (out.prep.delta
        / (if |lmin| < 1 / 10000000000 then max (1 / 10000000000) (lmax / 1000) else lmin)
        / 2 ^ negBit neg) ∧
      out.prep.scaling
        = (if |lmin| < 1 / 10000000000 then max (1 / 10000000000) (lmax / 1000) else lmin) := by
  by_cases hsmall : |lmin| < 1 / 10000000000
  · have hcore := HHL.stage1Core_small m (nbOf vec) neg (HHL.epsilonA eps) prior
      lmin lmax hb hsmall
    refine ⟨_, HHL.construct_circuit_comp m vec neg exact eps prior npMat chebAnc,
      ?_, ?_, ?_⟩
    · show (HHL.stage1Core m (nbOf vec) neg (HHL.epsilonA eps) prior).delta
        = HHL.get_delta ((HHL.stage1Core m (nbOf vec) neg (HHL.epsilonA eps) prior).nl
            - negBit neg)
          (if |lmin| < 1 / 10000000000 then max (1 / 10000000000) (lmax / 1000) else lmin)
          lmax
      rw [hcore, if_pos hsmall]
      rfl
    · show (HHL.stage1Core m (nbOf vec) neg (HHL.epsilonA eps) prior).evolutionTimeCoeff
        = some ((HHL.stage1Core m (nbOf vec) neg (HHL.epsilonA eps) prior).delta
          / (if |lmin| < 1 / 10000000000 then max (1 / 10000000000) (lmax / 1000) else lmin)
          / 2 ^ negBit neg)
      rw [hcore, if_pos hsmall]
      rfl
    · show (HHL.stage1Core m (nbOf vec) neg (HHL.epsilonA eps) prior).scaling
        = (if |lmin| < 1 / 10000000000 then max (1 / 10000000000) (lmax / 1000) else lmin)
      rw [hcore, if_pos hsmall]
      rfl
  · have hcore := HHL.stage1Core_notsmall m (nbOf vec) neg (HHL.epsilonA eps) prior
      lmin lmax hb hsmall
    refine ⟨_, HHL.construct_circuit_comp m vec neg exact eps prior npMat chebAnc,
      ?_, ?_, ?_⟩
    · show (HHL.stage1Core m (nbOf vec) neg (HHL.epsilonA eps) prior).delta
        = HHL.get_delta ((HHL.stage1Core m (nbOf vec) neg (HHL.epsilonA eps) prior).nl
            - negBit neg)
          (if |lmin| < 1 / 10000000000 then max (1 / 10000000000) (lmax / 1000) else lmin)
          lmax
      rw [hcore, if_neg hsmall]
      rfl
    · show (HHL.stage1Core m (nbOf vec) neg (HHL.epsilonA eps) prior).evolutionTimeCoeff
        = some ((HHL.stage1Core m (nbOf vec) neg (HHL.epsilonA eps) prior).delta
          / (if |lmin| < 1 / 10000000000 then max (1 / 10000000000) (lmax / 1000) else lmin)
          / 2 ^ negBit neg)
      rw [hcore, if_neg hsmall]
      rfl
    · show (HHL.stage1Core m (nbOf vec) neg (HHL.epsilonA eps) prior).scaling
        = (if |lmin| < 1 / 10000000000 then max (1 / 10000000000) (lmax / 1000) else lmin)
      rw [hcore, if_neg hsmall]
      rfl

theorem claim_C9_witness :
    (⟨0, none, some (1/3, 1), false⟩ : MatrixComp).eigsBounds = some (1/3, 1) ∧
    ∃ out : HHL.ConstructOut,
      HHL.construct_circuit (.comp ⟨0, none, some (1/3, 1), false⟩) (.circuit 1) true true 1 1
          (fun _ => ⟨0, none, none, false⟩) 0 = .ok out ∧
      out.prep.delta = HHL.get_delta (out.prep.nl - negBit true)
        (if |(1/3 : ℚ)| < 1 / 10000000000 then max (1 / 10000000000) ((1 : ℚ) / 1000)
          else 1/3) 1 ∧
      out.prep.evolutionTimeCoeff = some (out.prep.delta
        / (if |(1/3 : ℚ)| < 1 / 10000000000 then max (1 / 10000000000) ((1 : ℚ) / 1000)
            else 1/3)
        / 2 ^ negBit true) ∧
      out.prep.scaling
        = (if |(1/3 : ℚ)| < 1 / 10000000000 then max (1 / 10000000000) ((1 : ℚ) / 1000)
            else 1/3) :=
  ⟨rfl, claim_C9 ⟨0, none, some (1/3, 1), false⟩ (.circuit 1) true true 1 1
    (fun _ => ⟨0, none, none, false⟩) 0 (1/3) 1 rfl⟩

/-- Claim C10: when the matrix component declares no eigenvalue bounds,
`construct_circuit` sets `delta = 1/2^nl`, prints the scaling-factor note,
and leaves the solver's scaling at its prior value (1 by default), so the
norm computed by `solve` is divided by 1 in that case. -/
theorem claim_C10 (m : MatrixComp) (vec : VectorInput) (neg exact : Bool)
    (eps prior : ℚ) (npMat : List (List QC) → MatrixComp) (chebAnc : ℕ)
    (hb : m.eigsBounds = none) :
    ∃ out : HHL.ConstructOut,
      HHL.construct_circuit (.comp m) vec neg exact eps prior npMat chebAnc = .ok out ∧
      out.prep.delta = 1 / 2 ^ out.prep.nl ∧
      out.prep.printedScalingNote = true ∧
      out.prep.scaling = prior ∧
      (prior = HHL.defaultScaling →
        ∀ (nq : ℕ) (ψ : ℕ → QC),
          HHL.calculate_norm nq ψ out.prep.scaling
            = Real.sqrt ((HHL.expVal (2 ^ nq) (HHL.normObs nq) ψ).re)) := by
  have hcore := HHL.stage1Core_eigs_none m (nbOf vec) neg (HHL.epsilonA eps) prior hb
  refine ⟨_, HHL.construct_circuit_comp m vec neg exact eps prior npMat chebAnc,
    ?_, ?_, ?_, ?_⟩
  · show (HHL.stage1Core m (nbOf vec) neg (HHL.epsilonA eps) prior).delta
      = 1 / 2 ^ (HHL.stage1Core m (nbOf vec) neg (HHL.epsilonA eps) prior).nl
    rw [hcore]
  · show (HHL.stage1Core m (nbOf vec) neg (HHL.epsilonA eps) prior).printedScalingNote = true
    rw [hcore]
  · show (HHL.stage1Core m (nbOf vec) neg (HHL.epsilonA eps) prior).scaling = prior
    rw [hcore]
  · intro hprior nq ψ
    show HHL.calculate_norm nq ψ
      (HHL.stage1Core m (nbOf vec) neg (HHL.epsilonA eps) prior).scaling = _
    rw [hcore]
    show HHL.calculate_norm nq ψ prior = _
    rw [hprior]
    unfold HHL.calculate_norm HHL.defaultScaling
    norm_num

theorem claim_C10_witness :
    (⟨0, none, none, false⟩ : MatrixComp).eigsBounds = none ∧
    ∃ out : HHL.ConstructOut,
      HHL.construct_circuit (.comp ⟨0, none, none, false⟩) (.circuit 1) true true 1
          HHL.defaultScaling (fun _ => ⟨0, none, none, false⟩) 0 = .ok out ∧
      out.prep.delta = 1 / 2 ^ out.prep.nl ∧
      out.prep.printedScalingNote = true ∧
      out.prep.scaling = HHL.defaultScaling ∧
      (HHL.defaultScaling = HHL.defaultScaling →
        ∀ (nq : ℕ) (ψ : ℕ → QC),
          HHL.calculate_norm nq ψ out.prep.scaling
            = Real.sqrt ((HHL.expVal (2 ^ nq) (HHL.normObs nq) ψ).re)) :=
  ⟨rfl, claim_C10 ⟨0, none, none, false⟩ (.circuit 1) true true 1
    HHL.defaultScaling (fun _ => ⟨0, none, none, false⟩) 0 rfl⟩

theorem qlist_aux_join (g : ℕ → ℕ) (l : List ℕ) :
    (l.map fun i => [g i]).join = l.map g := by
  induction l with
  | nil => rfl
  | cons hd tl ih => simp [ih]

/-- Claim C4: the assembled circuit is exactly four sub-circuit
applications in strict order — state preparation on the solution register,
phase estimation on the eigenvalue register + solution register + oracle
ancillas, the selected reciprocal (eigenvalue register reversed plus flag
qubit in the exact variant; eigenvalue register, flag, reciprocal ancillas
otherwise), and the inverse phase estimation on the same wires as the
forward one — it contains no measurement, and the registers
`(qb, ql, [qa when na > 0], qf)` tile the wire indices `0 … nb+nl+na` in
that order. -/
theorem claim_C4 (nb nl na simAnc recAnc : ℕ) (exact : Bool) :
    HHL.stage3 nb nl na simAnc recAnc exact =
      [ ⟨.statePrep, HHL.qlist 0 nb⟩,
        ⟨.phaseEstimation,
          HHL.qlist nb nl ++ HHL.qlist 0 nb ++ (HHL.qlist (nb + nl) na).take simAnc⟩,
        (if exact then ⟨.reciprocal true, (HHL.qlist nb nl).reverse ++ [nb + nl + na]⟩
          else ⟨.reciprocal false,
            HHL.qlist nb nl ++ [nb + nl + na] ++ (HHL.qlist (nb + nl) na).take recAnc⟩),
        ⟨.phaseEstimationInv,
          HHL.qlist nb nl ++ HHL.qlist 0 nb ++ (HHL.qlist (nb + nl) na).take simAnc⟩ ] ∧
    (∀ inst ∈ HHL.stage3 nb nl na simAnc recAnc exact, inst.gate ≠ HHL.Gate.measure) ∧
    HHL.qlist 0 nb ++ HHL.qlist nb nl ++ HHL.qlist (nb + nl) na ++ [nb + nl + na]
      = List.range (nb + nl + na + 1) := by
  have hq0 : ∀ s, HHL.qlist s 0 = [] := fun s => rfl
  have hlist : HHL.stage3 nb nl na simAnc recAnc exact =
      [ ⟨.statePrep, HHL.qlist 0 nb⟩,
        ⟨.phaseEstimation,
          HHL.qlist nb nl ++ HHL.qlist 0 nb ++ (HHL.qlist (nb + nl) na).take simAnc⟩,
        (if exact then ⟨.reciprocal true, (HHL.qlist nb nl).reverse ++ [nb + nl + na]⟩
          else ⟨.reciprocal false,
            HHL.qlist nb nl ++ [nb + nl + na] ++ (HHL.qlist (nb + nl) na).take recAnc⟩),
        ⟨.phaseEstimationInv,
          HHL.qlist nb nl ++ HHL.qlist 0 nb ++ (HHL.qlist (nb + nl) na).take simAnc⟩ ] := by
    rcases Nat.eq_zero_or_pos na with h0 | hpos
    · subst h0
      simp [HHL.stage3, hq0]
    · simp [HHL.stage3, hpos]
  refine ⟨hlist, ?_, ?_⟩
  · intro inst hins
    rw [hlist] at hins
    simp only [List.mem_cons, List.not_mem_nil, or_false] at hins
    rcases hins with rfl | rfl | rfl | rfl
    · simp
    · simp
    · cases exact <;> simp
    · simp
  · have happ : ∀ s a b : ℕ, HHL.qlist s a ++ HHL.qlist (s + a) b = HHL.qlist s (a + b) := by
      intro s a b
      unfold HHL.qlist
      rw [List.range_add, List.map_append, List.map_map]
      congr 1
      apply List.map_congr_left
      intro x _
      simp only [Function.comp_apply]
      omega
    have e1 : HHL.qlist 0 nb ++ HHL.qlist nb nl = HHL.qlist 0 (nb + nl) := by
      have := happ 0 nb nl
      rwa [Nat.zero_add] at this
    have e2 : HHL.qlist 0 (nb + nl) ++ HHL.qlist (nb + nl) na
        = HHL.qlist 0 (nb + nl + na) := by
      have := happ 0 (nb + nl) na
      rwa [Nat.zero_add] at this
    have hsing : [nb + nl + na] = HHL.qlist (nb + nl + na) 1 := by
      unfold HHL.qlist
      rw [show List.range 1 = [0] from rfl]
      simp
    have e4 : HHL.qlist 0 (nb + nl + na) ++ HHL.qlist (nb + nl + na) 1
        = HHL.qlist 0 (nb + nl + na + 1) := by
      have := happ 0 (nb + nl + na) 1
      rwa [Nat.zero_add] at this
    have hid : HHL.qlist 0 (nb + nl + na + 1) = List.range (nb + nl + na + 1) := by
      simp [HHL.qlist]
    calc HHL.qlist 0 nb ++ HHL.qlist nb nl ++ HHL.qlist (nb + nl) na ++ [nb + nl + na]
        = HHL.qlist 0 (nb + nl) ++ HHL.qlist (nb + nl) na ++ [nb + nl + na] := by rw [e1]
    _ = HHL.qlist 0 (nb + nl + na) ++ [nb + nl + na] := by rw [e2]
    _ = HHL.qlist 0 (nb + nl + na) ++ HHL.qlist (nb + nl + na) 1 := by rw [← hsing]
    _ = HHL.qlist 0 (nb + nl + na + 1) := e4
    _ = List.range (nb + nl + na + 1) := hid

/-- Claim C6: `solve` enforces at entry — before `construct_circuit` is
invoked, so regardless of the matrix/vector payload — that a semantic
observable may not be combined with a non-null `observable_circuit` or a
non-null `post_processing`: any such combination returns the
request-conflict error. -/
theorem claim_C6 {α β γ : Type} (matrix : MatrixInput) (vector : VectorInput)
    (obs : Option α) (oc : Option β) (pp : Option γ) (exact : Bool)
    (eps prior : ℚ) (npMat : List (List QC) → MatrixComp) (chebAnc : ℕ)
    (hobs : obs.isSome = true) (hcomb : oc.isSome = true ∨ pp.isSome = true) :
    HHL.solve matrix vector obs oc pp exact eps prior npMat chebAnc
      = .error "If observable is passed, observable_circuit and post_processing cannot be set." := by
  unfold HHL.solve
  rcases hcomb with h | h <;> simp [hobs, h]

/-- Claim C6 witness: in particular, passing both `observable` and
`post_processing` raises — even with an unsupported matrix payload, the
conflict error is the one reported, showing the guard runs first. -/
theorem claim_C6_witness :
    (some () : Option Unit).isSome = true ∧
      ((none : Option Unit).isSome = true ∨ (some () : Option Unit).isSome = true) ∧
    HHL.solve .invalid (.circuit 1) (some ()) (none : Option Unit) (some ()) true 1 1
        (fun _ => ⟨0, none, none, false⟩) 0
      = .error "If observable is passed, observable_circuit and post_processing cannot be set." :=
  ⟨rfl, Or.inr rfl,
    claim_C6 .invalid (.circuit 1) (some ()) (none : Option Unit) (some ()) true 1 1
      (fun _ => ⟨0, none, none, false⟩) 0 rfl (Or.inr rfl)⟩

/-- Claim C7: for a matrix given as a numeric array, `construct_circuit`
fails synchronously — `stage1`, which runs before any reciprocal selection
or circuit assembly, returns the `ValueError` — whenever the matrix is
non-square, of non-power-of-two dimension, not Hermitian within the
`np.allclose` tolerance, or of dimension different from 2^(vector's
qubit count); and it likewise fails when the matrix argument is neither a
numeric array nor a circuit component. -/
theorem claim_C7 (rows : List (List QC)) (vec : VectorInput) (neg exact : Bool)
    (eps prior : ℚ) (npMat : List (List QC) → MatrixComp) (chebAnc : ℕ)
    (hbad : rows.length ≠ (rows.headD []).length ∨
      rows.length ≠ 2 ^ (bitLen rows.length - 1) ∨
      hermitianClose rows = false ∨
      rows.length ≠ 2 ^ nbOf vec) :
    isErr (HHL.construct_circuit (.arr rows) vec neg exact eps prior npMat chebAnc) = true ∧
    isErr (HHL.construct_circuit .invalid vec neg exact eps prior npMat chebAnc) = true := by
  constructor
  · unfold HHL.construct_circuit HHL.stage1
    dsimp only
    by_cases h1 : rows.length ≠ (rows.headD []).length
    · rw [if_pos h1]
      rfl
    · rw [if_neg h1]
      by_cases h2 : rows.length ≠ 2 ^ (bitLen rows.length - 1)
      · rw [if_pos h2]
        rfl
      · rw [if_neg h2]
        by_cases h3 : hermitianClose rows = false
        · rw [if_pos h3]
          rfl
        · rw [if_neg h3]
          by_cases h4 : rows.length ≠ 2 ^ nbOf vec
          · rw [if_pos h4]
            rfl
          · exfalso
            rcases hbad with h | h | h | h
            · exact h1 h
            · exact h2 h
            · exact h3 h
            · exact h4 h
  · rfl

theorem claim_C7_witness :
    (([[0, 0], [0, 0], [0, 0]] : List (List QC)).length
        ≠ (([[0, 0], [0, 0], [0, 0]] : List (List QC)).headD []).length ∨
      ([[0, 0], [0, 0], [0, 0]] : List (List QC)).length
        ≠ 2 ^ (bitLen ([[0, 0], [0, 0], [0, 0]] : List (List QC)).length - 1) ∨
      hermitianClose [[0, 0], [0, 0], [0, 0]] = false ∨
      ([[0, 0], [0, 0], [0, 0]] : List (List QC)).length ≠ 2 ^ nbOf (.circuit 1)) ∧
    (isErr (HHL.construct_circuit (.arr [[0, 0], [0, 0], [0, 0]]) (.circuit 1) true true 1 1
        (fun _ => ⟨0, none, none, false⟩) 0) = true ∧
      isErr (HHL.construct_circuit .invalid (.circuit 1) true true 1 1
        (fun _ => ⟨0, none, none, false⟩) 0) = true) :=
  ⟨Or.inl (by decide),
    claim_C7 [[0, 0], [0, 0], [0, 0]] (.circuit 1) true true 1 1
      (fun _ => ⟨0, none, none, false⟩) 0 (Or.inl (by decide))⟩

theorem buildBreakpoints_eq (a m N : ℕ) :
    HHL.buildBreakpoints a m N
      = (List.range m).map (fun i => a * 5 ^ i) ++ (if m = 0 then [] else [N - 1]) := by
  have hja : ∀ (l₁ l₂ : List (List ℕ)), (l₁ ++ l₂).join = l₁.join ++ l₂.join := by
    intro l₁ l₂
    induction l₁ with
    | nil => rfl
    | cons h t ih => simp [ih, List.append_assoc]
  rcases m with _ | k
  · rfl
  · unfold HHL.buildBreakpoints
    rw [List.range_succ, List.map_append, hja]
    have h1 : ((List.range k).map fun i =>
        if i = k + 1 - 1 then [a * 5 ^ i, N - 1] else [a * 5 ^ i])
        = (List.range k).map fun i => [a * 5 ^ i] := by
      apply List.map_congr_left
      intro i hi
      rw [if_neg]
      have := List.mem_range.mp hi
      omega
    rw [h1, qlist_aux_join]
    have h2 : (([k].map fun i =>
        if i = k + 1 - 1 then [a * 5 ^ i, N - 1] else [a * 5 ^ i])).join
        = [a * 5 ^ k, N - 1] := by
      simp
    rw [h2]
    simp

/-- Claim C8: in the approximate (Chebyshev) mode, `construct_circuit` uses
base point `a = round((2^nl)^(2/3))`, interval count
`⌈log((2^nl - 1)/a)/log 5⌉`, breakpoints `a·5^i` with `2^nl - 1` appended
as the final right endpoint, and a degree computed from the analytic bound
with `r = 2·delta/a + sqrt(1 - (2·delta/a)²)` capped at `nb` (the absolute
value the code wraps inside the square root being redundant since
`2·delta ≤ a` there), approximating `arcsin(delta/x)`; the ancilla count is
`max(simulation-oracle ancillas, Chebyshev-circuit ancillas)`, whereas the
exact mode takes the simulation oracle's ancilla count alone. -/
theorem claim_C8 (nb nl simAnc chebAnc : ℕ) (delta kappa epsR : ℚ) (neg : Bool)
    (hnl : 1 ≤ nl) (hd0 : 0 ≤ delta) (hda : 2 * delta ≤ (HHL.chebA nl : ℚ)) :
    (HHL.stage2 true neg nb nl delta kappa epsR simAnc chebAnc).na = simAnc ∧
    ∃ p : HHL.ChebParams,
      HHL.stage2 false neg nb nl delta kappa epsR simAnc chebAnc
        = { reciprocal := .chebyshev delta p, na := max simAnc chebAnc } ∧
      (p.a : ℤ) = round (((2 : ℝ) ^ nl) ^ ((2 : ℝ) / 3)) ∧
      p.numIntervals
        = ⌈Real.log (((2 ^ nl - 1 : ℕ) : ℝ) / ((HHL.chebA nl : ℕ) : ℝ)) / Real.log 5⌉ ∧
      p.breakpoints = (List.range p.numIntervals.toNat).map (fun i => p.a * 5 ^ i)
        ++ (if p.numIntervals.toNat = 0 then [] else [2 ^ nl - 1]) ∧
      p.degree = min (nb : ℤ)
        (HHL.intTrunc (Real.log (1 + (16.23 * Real.sqrt
            ((Real.log (2 * (delta : ℝ) / ((HHL.chebA nl : ℕ) : ℝ)
                + Real.sqrt (1 - (2 * (delta : ℝ) / ((HHL.chebA nl : ℕ) : ℝ)) ^ 2))) ^ 2
              + (Real.pi / 2) ^ 2)
          * (kappa : ℝ) * (2 * (kappa : ℝ) - (epsR : ℝ))) / (epsR : ℝ)))) := by
  have hA2 : 2 ≤ HHL.chebA nl := two_le_chebA nl hnl
  have hApos : (0 : ℝ) < ((HHL.chebA nl : ℕ) : ℝ) := by
    have : (0 : ℕ) < HHL.chebA nl := by omega
    exact_mod_cast this
  constructor
  · simp [HHL.stage2]
  · refine ⟨⟨HHL.chebA nl,
      intCeilLogBase 5 (((2 ^ nl - 1 : ℕ) : ℚ) / ((HHL.chebA nl : ℕ) : ℚ)),
      HHL.buildBreakpoints (HHL.chebA nl)
        (intCeilLogBase 5 (((2 ^ nl - 1 : ℕ) : ℚ) / ((HHL.chebA nl : ℕ) : ℚ))).toNat
        (2 ^ nl),
      HHL.chebDegreeCode nb nl delta kappa epsR⟩, ?_, ?_, ?_, ?_, ?_⟩
    · simp [HHL.stage2]
    · exact chebA_eq_round nl
    · show intCeilLogBase 5 (((2 ^ nl - 1 : ℕ) : ℚ) / ((HHL.chebA nl : ℕ) : ℚ)) = _
      rw [Real.log_div_log]
      have hq : (0 : ℚ) < ((2 ^ nl - 1 : ℕ) : ℚ) / ((HHL.chebA nl : ℕ) : ℚ) := by
        apply div_pos
        · have h1 : (1 : ℕ) ≤ 2 ^ nl - 1 := by
            have : (2 : ℕ) ≤ 2 ^ nl := by
              calc (2 : ℕ) = 2 ^ 1 := by norm_num
              _ ≤ 2 ^ nl := Nat.pow_le_pow_right (by norm_num) hnl
            omega
          exact_mod_cast Nat.lt_of_lt_of_le Nat.zero_lt_one h1
        · exact_mod_cast Nat.lt_of_lt_of_le Nat.zero_lt_two hA2
      rw [intCeilLogBase_eq 5 (by norm_num) _ hq]
      congr 1
      push_cast
      ring
    · show HHL.buildBreakpoints (HHL.chebA nl) _ (2 ^ nl) = _
      rw [buildBreakpoints_eq]
    · show HHL.chebDegreeCode nb nl delta kappa epsR = _
      unfold HHL.chebDegreeCode
      have hx0 : (0 : ℝ) ≤ 2 * (delta : ℝ) / ((HHL.chebA nl : ℕ) : ℝ) := by
        apply div_nonneg _ (le_of_lt hApos)
        have : (0 : ℝ) ≤ (delta : ℝ) := by exact_mod_cast hd0
        linarith
      have hx1 : 2 * (delta : ℝ) / ((HHL.chebA nl : ℕ) : ℝ) ≤ 1 := by
        rw [div_le_one hApos]
        have : (2 * delta : ℚ) ≤ ((HHL.chebA nl : ℕ) : ℚ) := hda
        exact_mod_cast this
      have habs : |1 - (2 * (delta : ℝ) / ((HHL.chebA nl : ℕ) : ℝ)) ^ 2|
          = 1 - (2 * (delta : ℝ) / ((HHL.chebA nl : ℕ) : ℝ)) ^ 2 := by
        apply abs_of_nonneg
        nlinarith
      rw [habs]

theorem claim_C8_witness :
    (1 ≤ 1 ∧ (0 : ℚ) ≤ 1/4 ∧ 2 * (1/4 : ℚ) ≤ (HHL.chebA 1 : ℚ)) ∧
    ((HHL.stage2 true false 1 1 (1/4) 1 (1/300) 0 1).na = 0 ∧
      ∃ p : HHL.ChebParams,
        HHL.stage2 false false 1 1 (1/4) 1 (1/300) 0 1
          = { reciprocal := .chebyshev (1/4) p, na := max 0 1 } ∧
        (p.a : ℤ) = round (((2 : ℝ) ^ (1 : ℕ)) ^ ((2 : ℝ) / 3)) ∧
        p.numIntervals
          = ⌈Real.log (((2 ^ (1 : ℕ) - 1 : ℕ) : ℝ) / ((HHL.chebA 1 : ℕ) : ℝ))
              / Real.log 5⌉ ∧
        p.breakpoints = (List.range p.numIntervals.toNat).map (fun i => p.a * 5 ^ i)
          ++ (if p.numIntervals.toNat = 0 then [] else [2 ^ (1 : ℕ) - 1]) ∧
        p.degree = min ((1 : ℕ) : ℤ)
          (HHL.intTrunc (Real.log (1 + (16.23 * Real.sqrt
              ((Real.log (2 * ((1/4 : ℚ) : ℝ) / ((HHL.chebA 1 : ℕ) : ℝ)
                  + Real.sqrt (1 - (2 * ((1/4 : ℚ) : ℝ) / ((HHL.chebA 1 : ℕ) : ℝ)) ^ 2))) ^ 2
                + (Real.pi / 2) ^ 2)
            * ((1 : ℚ) : ℝ) * (2 * ((1 : ℚ) : ℝ) - ((1/300 : ℚ) : ℝ)))
              / ((1/300 : ℚ) : ℝ))))) :=
  ⟨⟨le_rfl, by norm_num, by
      have h : HHL.chebA 1 = 2 := by decide
      rw [h]
      norm_num⟩,
    claim_C8 1 1 0 1 (1/4) 1 (1/300) false le_rfl (by norm_num) (by
      have h : HHL.chebA 1 = 2 := by decide
      rw [h]
      norm_num)⟩

theorem claim_C4_witness :
    HHL.stage3 1 1 1 0 0 true =
      [ ⟨.statePrep, HHL.qlist 0 1⟩,
        ⟨.phaseEstimation, HHL.qlist 1 1 ++ HHL.qlist 0 1 ++ (HHL.qlist 2 1).take 0⟩,
        ⟨.reciprocal true, (HHL.qlist 1 1).reverse ++ [3]⟩,
        ⟨.phaseEstimationInv, HHL.qlist 1 1 ++ HHL.qlist 0 1 ++ (HHL.qlist 2 1).take 0⟩ ] ∧
    (∀ inst ∈ HHL.stage3 1 1 1 0 0 true, inst.gate ≠ HHL.Gate.measure) ∧
    HHL.qlist 0 1 ++ HHL.qlist 1 1 ++ HHL.qlist 2 1 ++ [3] = List.range 4 :=
  claim_C4 1 1 1 0 0 true
